import Mathlib

/-!
Verification of the adversarial-search engine (`adversarialsearch.py`).

The game interface is embedded as a finitely branching game tree: a state is
either terminal (carrying the player to move and one reward per player index)
or an internal node carrying the player to move and the list of successor
states, one per available action.  Actions are the indices into that list, so
`transition state a = children[a]` and `get_available_actions` is the index
range.  Numeric values are integers extended with the two float infinities
used by the source (`float('-inf')`, `float('inf')`), modelled as
`WithBot (WithTop ℤ)`.
-/

/-- Search values: integers together with `-inf` (`⊥`) and `+inf` (`⊤`),
mirroring the source's float sentinels. -/
abbrev EVal : Type := WithBot (WithTop ℤ)

/-- Embed an integer reward into the value domain. -/
def iv (x : ℤ) : EVal := ((x : WithTop ℤ) : EVal)

/-- A finite game instance: the abstract-search-problem interface unfolded
into the tree of states the search can reach.  `terminal pl rws` is a state
where `is_terminal_state` holds, `pl` is `player_to_move` and `rws` the
reward list of `evaluate_state`; `node pl cs` is a non-terminal state with
player `pl` to move whose transitions lead to the states in `cs`. -/
inductive GameTree : Type where
  | terminal (pl : Nat) (rws : List ℤ)
  | node (pl : Nat) (cs : List GameTree)

namespace GameTree

/-- `State.player_to_move()`. -/
def player : GameTree → Nat
  | .terminal pl _ => pl
  | .node pl _ => pl

/-- `asp.is_terminal_state(state)`. -/
def isTerminal : GameTree → Bool
  | .terminal _ _ => true
  | .node _ _ => false

/-- `asp.evaluate_state(state)` (reward list; meaningful on terminals). -/
def evalState : GameTree → List ℤ
  | .terminal _ rws => rws
  | .node _ _ => []

/-- The successor states of `state`, one per available action. -/
def children : GameTree → List GameTree
  | .terminal _ _ => []
  | .node _ cs => cs

end GameTree

/-! ### Minimax (`minimax`, `max_value`, `min_value`) -/

mutual

/-- `max_value(asp, state)`: the root tree `g` stands for `asp`
(`g.player` is `asp.get_start_state().player_to_move()`). -/
def max_value (g : GameTree) (t : GameTree) : EVal :=
  match t with
  | .terminal _ rws => iv (rws.getD g.player 0)
  | .node _ cs => maxFold g cs ⊥

/-- The `for` loop of `max_value`: `v = max(v, min_value(asp, child))`. -/
def maxFold (g : GameTree) (l : List GameTree) (v : EVal) : EVal :=
  match l with
  | [] => v
  | c :: cs => maxFold g cs (max v (min_value g c))

/-- `min_value(asp, state)`. -/
def min_value (g : GameTree) (t : GameTree) : EVal :=
  match t with
  | .terminal _ rws => iv (rws.getD g.player 0)
  | .node _ cs => minFold g cs ⊤

/-- The `for` loop of `min_value`: `v = min(v, max_value(asp, child))`. -/
def minFold (g : GameTree) (l : List GameTree) (v : EVal) : EVal :=
  match l with
  | [] => v
  | c :: cs => minFold g cs (min v (max_value g c))

end

/-- The root loop of `minimax`: tracks the best action seen (`act`) and its
value (`result`), replacing them only on a strictly greater value. -/
def minimaxLoop (g : GameTree) (l : List GameTree) (i : Nat)
    (act : Option Nat) (result : EVal) : Option Nat :=
  match l with
  | [] => act
  | c :: cs =>
    let value := min_value g c
    if result < value then minimaxLoop g cs (i + 1) (some i) value
    else minimaxLoop g cs (i + 1) act result

/-- `minimax(asp)`: action indices into the root's child list. -/
def minimax (g : GameTree) : Option Nat :=
  minimaxLoop g g.children 0 none ⊥

/-! ### Alpha-beta pruning (`alpha_beta`, `alpha_beta_max`, `alpha_beta_min`) -/

mutual

/-- `alpha_beta_max(asp, state, alpha, beta)`. -/
def alpha_beta_max (g : GameTree) (t : GameTree) (alpha beta : EVal) : EVal :=
  match t with
  | .terminal _ rws => iv (rws.getD g.player 0)
  | .node _ cs => abMaxFold g cs ⊥ alpha beta

/-- The loop of `alpha_beta_max`: raise `v`, return early once `v >= beta`,
else raise `alpha` and continue. -/
def abMaxFold (g : GameTree) (l : List GameTree) (v alpha beta : EVal) : EVal :=
  match l with
  | [] => v
  | c :: cs =>
    let v' := max v (alpha_beta_min g c alpha beta)
    if beta ≤ v' then v'
    else abMaxFold g cs v' (max alpha v') beta

/-- `alpha_beta_min(asp, state, alpha, beta)`. -/
def alpha_beta_min (g : GameTree) (t : GameTree) (alpha beta : EVal) : EVal :=
  match t with
  | .terminal _ rws => iv (rws.getD g.player 0)
  | .node _ cs => abMinFold g cs ⊤ alpha beta

/-- The loop of `alpha_beta_min`: lower `v`, return early once `v <= alpha`,
else lower `beta` and continue. -/
def abMinFold (g : GameTree) (l : List GameTree) (v alpha beta : EVal) : EVal :=
  match l with
  | [] => v
  | c :: cs =>
    let v' := min v (alpha_beta_max g c alpha beta)
    if v' ≤ alpha then v'
    else abMinFold g cs v' alpha (min beta v')

end

/-- The root loop of `alpha_beta`: best-action tracking as in `minimax`,
plus the root-level beta cutoff and alpha update of the source. -/
def alphaBetaLoop (g : GameTree) (l : List GameTree) (i : Nat)
    (act : Option Nat) (result alpha beta : EVal) : Option Nat :=
  match l with
  | [] => act
  | c :: cs =>
    let value := alpha_beta_min g c alpha beta
    let act' := if result < value then some i else act
    let result' := if result < value then value else result
    if beta ≤ value then act'
    else alphaBetaLoop g cs (i + 1) act' result' (max alpha value) beta

/-- `alpha_beta(asp)`. -/
def alpha_beta (g : GameTree) : Option Nat :=
  alphaBetaLoop g g.children 0 none ⊥ ⊥ ⊤

/-! ### Depth-limited alpha-beta
(`alpha_beta_cutoff`, `cutoff_max`, `cutoff_min`) -/

mutual

/-- `cutoff_max(asp, state, alpha, beta, cutoff, depth, eval_func, player)`:
terminal test first, then the ply-cutoff test, then the pruned loop. -/
def cutoff_max (t : GameTree) (alpha beta : EVal) (cutoff depth : Nat)
    (f : GameTree → ℤ) (p : Nat) : EVal :=
  match t with
  | .terminal _ rws => iv (rws.getD p 0)
  | .node pl cs =>
    if depth = cutoff then iv (f (.node pl cs))
    else coMaxFold cs ⊥ alpha beta cutoff depth f p

/-- The loop of `cutoff_max` (children searched at `depth + 1`). -/
def coMaxFold (l : List GameTree) (v alpha beta : EVal) (cutoff depth : Nat)
    (f : GameTree → ℤ) (p : Nat) : EVal :=
  match l with
  | [] => v
  | c :: cs =>
    let v' := max v (cutoff_min c alpha beta cutoff (depth + 1) f p)
    if beta ≤ v' then v'
    else coMaxFold cs v' (max alpha v') beta cutoff depth f p

/-- `cutoff_min(asp, state, alpha, beta, cutoff, depth, eval_func, player)`. -/
def cutoff_min (t : GameTree) (alpha beta : EVal) (cutoff depth : Nat)
    (f : GameTree → ℤ) (p : Nat) : EVal :=
  match t with
  | .terminal _ rws => iv (rws.getD p 0)
  | .node pl cs =>
    if depth = cutoff then iv (f (.node pl cs))
    else coMinFold cs ⊤ alpha beta cutoff depth f p

/-- The loop of `cutoff_min` (children searched at `depth + 1`). -/
def coMinFold (l : List GameTree) (v alpha beta : EVal) (cutoff depth : Nat)
    (f : GameTree → ℤ) (p : Nat) : EVal :=
  match l with
  | [] => v
  | c :: cs =>
    let v' := min v (cutoff_max c alpha beta cutoff (depth + 1) f p)
    if v' ≤ alpha then v'
    else coMinFold cs v' alpha (min beta v') cutoff depth f p

end

/-- The root loop of `alpha_beta_cutoff`: children are explored by
`cutoff_min` at depth `1`. -/
def cutoffLoop (l : List GameTree) (i : Nat) (act : Option Nat)
    (result alpha beta : EVal) (cutoff : Nat) (f : GameTree → ℤ) (p : Nat) :
    Option Nat :=
  match l with
  | [] => act
  | c :: cs =>
    let value := cutoff_min c alpha beta cutoff 1 f p
    let act' := if result < value then some i else act
    let result' := if result < value then value else result
    if beta ≤ value then act'
    else cutoffLoop cs (i + 1) act' result' (max alpha value) beta cutoff f p

/-- `alpha_beta_cutoff(asp, cutoff_ply, eval_func)`; `player` is the player
to move at the start state. -/
def alpha_beta_cutoff (g : GameTree) (cutoff : Nat) (f : GameTree → ℤ) :
    Option Nat :=
  cutoffLoop g.children 0 none ⊥ ⊥ ⊤ cutoff f g.player

/-! ### Generalized minimax
(`general_minimax`, `general_max`, `general_min`) -/

mutual

/-- `general_max(state, player, asp)`: maximize `player`'s value, picking
the recursive helper by the player to move at each child. -/
def general_max (t : GameTree) (p : Nat) : EVal :=
  match t with
  | .terminal _ rws => iv (rws.getD p 0)
  | .node _ cs => genMaxFold cs p ⊥

/-- The loop of `general_max`. -/
def genMaxFold (l : List GameTree) (p : Nat) (v : EVal) : EVal :=
  match l with
  | [] => v
  | c :: cs =>
    if c.player = p then genMaxFold cs p (max v (general_max c p))
    else genMaxFold cs p (max v (general_min c p))

/-- `general_min(state, player, asp)`: starts at `+inf` and takes minima of
its children's values. -/
def general_min (t : GameTree) (p : Nat) : EVal :=
  match t with
  | .terminal _ rws => iv (rws.getD p 0)
  | .node _ cs => genMinFold cs p ⊤

/-- The loop of `general_min`. -/
def genMinFold (l : List GameTree) (p : Nat) (v : EVal) : EVal :=
  match l with
  | [] => v
  | c :: cs =>
    if c.player = p then genMinFold cs p (min v (general_max c p))
    else genMinFold cs p (min v (general_min c p))

end

/-- The root loop of `general_minimax`: both dispatch branches update the
best action on a strictly greater value. -/
def generalLoop (l : List GameTree) (p : Nat) (i : Nat) (act : Option Nat)
    (maximum : EVal) : Option Nat :=
  match l with
  | [] => act
  | c :: cs =>
    let s := if c.player = p then general_max c p else general_min c p
    if maximum < s then generalLoop cs p (i + 1) (some i) s
    else generalLoop cs p (i + 1) act maximum

/-- `general_minimax(asp)`. -/
def general_minimax (g : GameTree) : Option Nat :=
  generalLoop g.children g.player 0 none ⊥

/-! ### Instrumented runs

Each search strategy is re-run with instrumentation that records, in call
order, the states passed to `evaluate_state` (and, for the cutoff variant,
the states and depths passed to `eval_func`).  The alpha-beta variant also
reports whether some loop returned early while unexplored actions remained
(a genuinely pruned subtree).  The value/action components compute exactly
as the plain definitions. -/

mutual

/-- `max_value` returning also the `evaluate_state` call log. -/
def max_valueL (g : GameTree) (t : GameTree) : EVal × List GameTree :=
  match t with
  | .terminal pl rws => (iv (rws.getD g.player 0), [.terminal pl rws])
  | .node _ cs => maxFoldL g cs ⊥

/-- Logging loop of `max_value`. -/
def maxFoldL (g : GameTree) (l : List GameTree) (v : EVal) :
    EVal × List GameTree :=
  match l with
  | [] => (v, [])
  | c :: cs =>
    let r := min_valueL g c
    let rest := maxFoldL g cs (max v r.1)
    (rest.1, r.2 ++ rest.2)

/-- `min_value` returning also the `evaluate_state` call log. -/
def min_valueL (g : GameTree) (t : GameTree) : EVal × List GameTree :=
  match t with
  | .terminal pl rws => (iv (rws.getD g.player 0), [.terminal pl rws])
  | .node _ cs => minFoldL g cs ⊤

/-- Logging loop of `min_value`. -/
def minFoldL (g : GameTree) (l : List GameTree) (v : EVal) :
    EVal × List GameTree :=
  match l with
  | [] => (v, [])
  | c :: cs =>
    let r := max_valueL g c
    let rest := minFoldL g cs (min v r.1)
    (rest.1, r.2 ++ rest.2)

end

/-- Logging root loop of `minimax`. -/
def minimaxLoopL (g : GameTree) (l : List GameTree) (i : Nat)
    (act : Option Nat) (result : EVal) : Option Nat × List GameTree :=
  match l with
  | [] => (act, [])
  | c :: cs =>
    let r := min_valueL g c
    let rest :=
      if result < r.1 then minimaxLoopL g cs (i + 1) (some i) r.1
      else minimaxLoopL g cs (i + 1) act result
    (rest.1, r.2 ++ rest.2)

/-- `minimax` with its `evaluate_state` call log. -/
def minimaxL (g : GameTree) : Option Nat × List GameTree :=
  minimaxLoopL g g.children 0 none ⊥

mutual

/-- `alpha_beta_max` with `evaluate_state` log and pruned-subtree flag. -/
def alpha_beta_maxL (g : GameTree) (t : GameTree) (alpha beta : EVal) :
    EVal × List GameTree × Bool :=
  match t with
  | .terminal pl rws => (iv (rws.getD g.player 0), [.terminal pl rws], false)
  | .node _ cs => abMaxFoldL g cs ⊥ alpha beta

/-- Logging loop of `alpha_beta_max`; an early return with a nonempty list
of remaining actions sets the pruned flag. -/
def abMaxFoldL (g : GameTree) (l : List GameTree) (v alpha beta : EVal) :
    EVal × List GameTree × Bool :=
  match l with
  | [] => (v, [], false)
  | c :: cs =>
    let r := alpha_beta_minL g c alpha beta
    let v' := max v r.1
    if beta ≤ v' then (v', r.2.1, r.2.2 || !cs.isEmpty)
    else
      let rest := abMaxFoldL g cs v' (max alpha v') beta
      (rest.1, r.2.1 ++ rest.2.1, r.2.2 || rest.2.2)

/-- `alpha_beta_min` with `evaluate_state` log and pruned-subtree flag. -/
def alpha_beta_minL (g : GameTree) (t : GameTree) (alpha beta : EVal) :
    EVal × List GameTree × Bool :=
  match t with
  | .terminal pl rws => (iv (rws.getD g.player 0), [.terminal pl rws], false)
  | .node _ cs => abMinFoldL g cs ⊤ alpha beta

/-- Logging loop of `alpha_beta_min`. -/
def abMinFoldL (g : GameTree) (l : List GameTree) (v alpha beta : EVal) :
    EVal × List GameTree × Bool :=
  match l with
  | [] => (v, [], false)
  | c :: cs =>
    let r := alpha_beta_maxL g c alpha beta
    let v' := min v r.1
    if v' ≤ alpha then (v', r.2.1, r.2.2 || !cs.isEmpty)
    else
      let rest := abMinFoldL g cs v' alpha (min beta v')
      (rest.1, r.2.1 ++ rest.2.1, r.2.2 || rest.2.2)

end

/-- Logging root loop of `alpha_beta`. -/
def alphaBetaLoopL (g : GameTree) (l : List GameTree) (i : Nat)
    (act : Option Nat) (result alpha beta : EVal) :
    Option Nat × List GameTree × Bool :=
  match l with
  | [] => (act, [], false)
  | c :: cs =>
    let r := alpha_beta_minL g c alpha beta
    let act' := if result < r.1 then some i else act
    let result' := if result < r.1 then r.1 else result
    if beta ≤ r.1 then (act', r.2.1, r.2.2 || !cs.isEmpty)
    else
      let rest := alphaBetaLoopL g cs (i + 1) act' result' (max alpha r.1) beta
      (rest.1, r.2.1 ++ rest.2.1, r.2.2 || rest.2.2)

/-- `alpha_beta` with its `evaluate_state` call log and pruned flag. -/
def alpha_betaL (g : GameTree) : Option Nat × List GameTree × Bool :=
  alphaBetaLoopL g g.children 0 none ⊥ ⊥ ⊤

mutual

/-- `cutoff_max` with the `evaluate_state` log and the `eval_func` call log
(state and depth at each `eval_func` application). -/
def cutoff_maxL (t : GameTree) (alpha beta : EVal) (cutoff depth : Nat)
    (f : GameTree → ℤ) (p : Nat) :
    EVal × List GameTree × List (GameTree × Nat) :=
  match t with
  | .terminal pl rws => (iv (rws.getD p 0), [.terminal pl rws], [])
  | .node pl cs =>
    if depth = cutoff then (iv (f (.node pl cs)), [], [(.node pl cs, depth)])
    else coMaxFoldL cs ⊥ alpha beta cutoff depth f p

/-- Logging loop of `cutoff_max`. -/
def coMaxFoldL (l : List GameTree) (v alpha beta : EVal) (cutoff depth : Nat)
    (f : GameTree → ℤ) (p : Nat) :
    EVal × List GameTree × List (GameTree × Nat) :=
  match l with
  | [] => (v, [], [])
  | c :: cs =>
    let r := cutoff_minL c alpha beta cutoff (depth + 1) f p
    let v' := max v r.1
    if beta ≤ v' then (v', r.2.1, r.2.2)
    else
      let rest := coMaxFoldL cs v' (max alpha v') beta cutoff depth f p
      (rest.1, r.2.1 ++ rest.2.1, r.2.2 ++ rest.2.2)

/-- `cutoff_min` with the `evaluate_state` and `eval_func` call logs. -/
def cutoff_minL (t : GameTree) (alpha beta : EVal) (cutoff depth : Nat)
    (f : GameTree → ℤ) (p : Nat) :
    EVal × List GameTree × List (GameTree × Nat) :=
  match t with
  | .terminal pl rws => (iv (rws.getD p 0), [.terminal pl rws], [])
  | .node pl cs =>
    if depth = cutoff then (iv (f (.node pl cs)), [], [(.node pl cs, depth)])
    else coMinFoldL cs ⊤ alpha beta cutoff depth f p

/-- Logging loop of `cutoff_min`. -/
def coMinFoldL (l : List GameTree) (v alpha beta : EVal) (cutoff depth : Nat)
    (f : GameTree → ℤ) (p : Nat) :
    EVal × List GameTree × List (GameTree × Nat) :=
  match l with
  | [] => (v, [], [])
  | c :: cs =>
    let r := cutoff_maxL c alpha beta cutoff (depth + 1) f p
    let v' := min v r.1
    if v' ≤ alpha then (v', r.2.1, r.2.2)
    else
      let rest := coMinFoldL cs v' alpha (min beta v') cutoff depth f p
      (rest.1, r.2.1 ++ rest.2.1, r.2.2 ++ rest.2.2)

end

/-- Logging root loop of `alpha_beta_cutoff`. -/
def cutoffLoopL (l : List GameTree) (i : Nat) (act : Option Nat)
    (result alpha beta : EVal) (cutoff : Nat) (f : GameTree → ℤ) (p : Nat) :
    Option Nat × List GameTree × List (GameTree × Nat) :=
  match l with
  | [] => (act, [], [])
  | c :: cs =>
    let r := cutoff_minL c alpha beta cutoff 1 f p
    let act' := if result < r.1 then some i else act
    let result' := if result < r.1 then r.1 else result
    if beta ≤ r.1 then (act', r.2.1, r.2.2)
    else
      let rest :=
        cutoffLoopL cs (i + 1) act' result' (max alpha r.1) beta cutoff f p
      (rest.1, r.2.1 ++ rest.2.1, r.2.2 ++ rest.2.2)

/-- `alpha_beta_cutoff` with its `evaluate_state` and `eval_func` logs. -/
def alpha_beta_cutoffL (g : GameTree) (cutoff : Nat) (f : GameTree → ℤ) :
    Option Nat × List GameTree × List (GameTree × Nat) :=
  cutoffLoopL g.children 0 none ⊥ ⊥ ⊤ cutoff f g.player

mutual

/-- `general_max` with its `evaluate_state` call log. -/
def general_maxL (t : GameTree) (p : Nat) : EVal × List GameTree :=
  match t with
  | .terminal pl rws => (iv (rws.getD p 0), [.terminal pl rws])
  | .node _ cs => genMaxFoldL cs p ⊥

/-- Logging loop of `general_max`. -/
def genMaxFoldL (l : List GameTree) (p : Nat) (v : EVal) :
    EVal × List GameTree :=
  match l with
  | [] => (v, [])
  | c :: cs =>
    let r := if c.player = p then general_maxL c p else general_minL c p
    let rest := genMaxFoldL cs p (max v r.1)
    (rest.1, r.2 ++ rest.2)

/-- `general_min` with its `evaluate_state` call log. -/
def general_minL (t : GameTree) (p : Nat) : EVal × List GameTree :=
  match t with
  | .terminal pl rws => (iv (rws.getD p 0), [.terminal pl rws])
  | .node _ cs => genMinFoldL cs p ⊤

/-- Logging loop of `general_min`. -/
def genMinFoldL (l : List GameTree) (p : Nat) (v : EVal) :
    EVal × List GameTree :=
  match l with
  | [] => (v, [])
  | c :: cs =>
    let r := if c.player = p then general_maxL c p else general_minL c p
    let rest := genMinFoldL cs p (min v r.1)
    (rest.1, r.2 ++ rest.2)

end

/-- Logging root loop of `general_minimax`. -/
def generalLoopL (l : List GameTree) (p : Nat) (i : Nat) (act : Option Nat)
    (maximum : EVal) : Option Nat × List GameTree :=
  match l with
  | [] => (act, [])
  | c :: cs =>
    let r := if c.player = p then general_maxL c p else general_minL c p
    let rest :=
      if maximum < r.1 then generalLoopL cs p (i + 1) (some i) r.1
      else generalLoopL cs p (i + 1) act maximum
    (rest.1, r.2 ++ rest.2)

/-- `general_minimax` with its `evaluate_state` call log. -/
def general_minimaxL (g : GameTree) : Option Nat × List GameTree :=
  generalLoopL g.children g.player 0 none ⊥

/-! ### Auxiliary notions used by the specification's properties -/

mutual

/-- A well-formed game: every non-terminal state has at least one
available action (the caller contract of §6). -/
def GameTree.wfB : GameTree → Bool
  | .terminal _ _ => true
  | .node _ cs => !cs.isEmpty && GameTree.wfListB cs

/-- `wfB` on every member of a list of states. -/
def GameTree.wfListB : List GameTree → Bool
  | [] => true
  | c :: cs => GameTree.wfB c && GameTree.wfListB cs

end

mutual

/-- Number of terminal states of the game tree, counted with multiplicity
of paths: exactly the number of `evaluate_state` calls of a full search. -/
def GameTree.leaves : GameTree → Nat
  | .terminal _ _ => 1
  | .node _ cs => GameTree.leavesList cs

/-- Total `leaves` of a list of states. -/
def GameTree.leavesList : List GameTree → Nat
  | [] => 0
  | c :: cs => GameTree.leaves c + GameTree.leavesList cs

end

mutual

/-- `altFrom p b t`: in the subtree `t`, the root player `p` is to move
at a non-terminal state exactly when the flag says so, and the flag flips
at every ply: strict two-sided alternation relative to `p`. -/
def altFrom (p : Nat) (b : Bool) : GameTree → Bool
  | .terminal _ _ => true
  | .node pl cs => ((pl == p) == b) && altFromList p (!b) cs

/-- `altFrom` on every member of a list of states. -/
def altFromList (p : Nat) (b : Bool) : List GameTree → Bool
  | [] => true
  | c :: cs => altFrom p b c && altFromList p b cs

end

/-- The whole game alternates strictly: below the root, the root player
moves exactly at even depths. -/
def altRoot : GameTree → Bool
  | .terminal _ _ => true
  | .node p cs => altFromList p false cs

mutual

/-- Exactly two players: every player index is `0` or `1` and every
terminal carries one reward per player. -/
def twoPlayerB : GameTree → Bool
  | .terminal pl rws => (pl == 0 || pl == 1) && rws.length == 2
  | .node pl cs => (pl == 0 || pl == 1) && twoPlayerListB cs

/-- `twoPlayerB` on every member of a list of states. -/
def twoPlayerListB : List GameTree → Bool
  | [] => true
  | c :: cs => twoPlayerB c && twoPlayerListB cs

end

mutual

/-- Constant-sum game with constant `k`: the rewards of every terminal
state sum to `k`. -/
def constSumB (k : ℤ) : GameTree → Bool
  | .terminal _ rws => rws.sum == k
  | .node _ cs => constSumListB k cs

/-- `constSumB` on every member of a list of states. -/
def constSumListB (k : ℤ) : List GameTree → Bool
  | [] => true
  | c :: cs => constSumB k c && constSumListB k cs

end

/-- All states at ply depth exactly `n` below `t` (depth `0` is `t`). -/
def statesAtDepth : Nat → GameTree → List GameTree
  | 0, t => [t]
  | n + 1, t => (t.children.map (statesAtDepth n)).flatten

/-- The index of the first occurrence of the strict maximum of a value
list, or `none` when the list's maximum does not exceed `-inf`: the
selection rule of the root loops. -/
def argmaxFirst (l : List EVal) : Option Nat :=
  if l.foldl max ⊥ = ⊥ then none
  else some (l.findIdx (fun x => decide (l.foldl max ⊥ ≤ x)))

/-- The value the loops of the generalized search assign to a child state:
the recursive helper is picked by the player to move there. -/
def general_value (c : GameTree) (p : Nat) : EVal :=
  if c.player = p then general_max c p else general_min c p

/-- Fail-soft alpha-beta contract: the returned value `r` agrees with the
exact backed-up value `gv` inside the window `(alpha, beta)`, is an upper
bound on `gv` when it falls at or below `alpha`, and a lower bound on `gv`
when it reaches `beta`. -/
def Approx (r gv alpha beta : EVal) : Prop :=
  (r ≤ alpha → gv ≤ r) ∧ (alpha < r → r < beta → r = gv) ∧
    (beta ≤ r → r ≤ gv)

/-! ### Order facts about `EVal` -/

theorem iv_lt_top (x : ℤ) : iv x < ⊤ := by
  rw [iv, ← WithBot.coe_top, WithBot.coe_lt_coe]
  exact WithTop.coe_lt_top x

theorem bot_lt_iv (x : ℤ) : (⊥ : EVal) < iv x := by
  simp [iv]

theorem eval_bot_lt_top : (⊥ : EVal) < ⊤ :=
  (bot_lt_iv 0).trans (iv_lt_top 0)

/-! ### Generic fold lemmas -/

theorem foldl_max_init (l : List EVal) (a b : EVal) :
    l.foldl max (max a b) = max a (l.foldl max b) := by
  induction l generalizing b with
  | nil => rfl
  | cons x xs ih =>
    simp only [List.foldl_cons, max_assoc]
    exact ih (max b x)

theorem foldl_min_init (l : List EVal) (a b : EVal) :
    l.foldl min (min a b) = min a (l.foldl min b) := by
  induction l generalizing b with
  | nil => rfl
  | cons x xs ih =>
    simp only [List.foldl_cons, min_assoc]
    exact ih (min b x)

theorem le_foldl_max (l : List EVal) (v : EVal) : v ≤ l.foldl max v := by
  induction l generalizing v with
  | nil => exact le_refl v
  | cons x xs ih => exact le_trans (le_max_left v x) (ih (max v x))

theorem foldl_min_le (l : List EVal) (v : EVal) : l.foldl min v ≤ v := by
  induction l generalizing v with
  | nil => exact le_refl v
  | cons x xs ih => exact le_trans (ih (min v x)) (min_le_left v x)

theorem foldl_max_mem_le (l : List EVal) (v x : EVal) (hx : x ∈ l) :
    x ≤ l.foldl max v := by
  induction l generalizing v with
  | nil => cases hx
  | cons y ys ih =>
    rcases List.mem_cons.mp hx with h | h
    · subst h
      exact le_trans (le_max_right v x) (le_foldl_max ys (max v x))
    · exact ih (max v y) h

theorem foldl_min_mem_le (l : List EVal) (v x : EVal) (hx : x ∈ l) :
    l.foldl min v ≤ x := by
  induction l generalizing v with
  | nil => cases hx
  | cons y ys ih =>
    rcases List.mem_cons.mp hx with h | h
    · subst h
      exact le_trans (foldl_min_le ys (min v x)) (min_le_right v x)
    · exact ih (min v y) h

theorem foldl_max_attained (l : List EVal) (v : EVal) :
    l.foldl max v = v ∨ ∃ x ∈ l, l.foldl max v = x := by
  induction l generalizing v with
  | nil => exact Or.inl rfl
  | cons y ys ih =>
    rcases ih (max v y) with h | ⟨x, hx, he⟩
    · rcases max_cases v y with ⟨hm, _⟩ | ⟨hm, _⟩
      · exact Or.inl (by simpa [hm] using h)
      · exact Or.inr ⟨y, List.mem_cons_self y ys, by simpa [hm] using h⟩
    · exact Or.inr ⟨x, List.mem_cons_of_mem y hx, he⟩

theorem foldl_min_attained (l : List EVal) (v : EVal) :
    l.foldl min v = v ∨ ∃ x ∈ l, l.foldl min v = x := by
  induction l generalizing v with
  | nil => exact Or.inl rfl
  | cons y ys ih =>
    rcases ih (min v y) with h | ⟨x, hx, he⟩
    · rcases min_cases v y with ⟨hm, _⟩ | ⟨hm, _⟩
      · exact Or.inl (by simpa [hm] using h)
      · exact Or.inr ⟨y, List.mem_cons_self y ys, by simpa [hm] using h⟩
    · exact Or.inr ⟨x, List.mem_cons_of_mem y hx, he⟩

/-- The root loop of `minimax` selects the first index whose value strictly
exceeds everything before it and is never exceeded after: the first
occurrence of the maximum, relative to the running initial `result`. -/
theorem minimaxLoop_spec (g : GameTree) (cs : List GameTree) :
    ∀ (i : Nat) (act : Option Nat) (result : EVal),
    minimaxLoop g cs i act result =
      if (cs.map (min_value g)).foldl max result = result then act
      else some (i + (cs.map (min_value g)).findIdx
        (fun x => decide ((cs.map (min_value g)).foldl max result ≤ x))) := by
  induction cs with
  | nil => intro i act result; simp [minimaxLoop]
  | cons c cs ih =>
    intro i act result
    rw [minimaxLoop]
    simp only [List.map_cons, List.foldl_cons]
    by_cases hx : result < min_value g c
    · rw [if_pos hx, ih]
      simp only [max_eq_right hx.le]
      have hM : min_value g c ≤ (cs.map (min_value g)).foldl max (min_value g c) :=
        le_foldl_max _ _
      have hMr : ¬ (cs.map (min_value g)).foldl max (min_value g c) = result := by
        intro h
        exact absurd (h ▸ hM) (not_le.mpr hx)
      rw [if_neg hMr]
      by_cases hMx : (cs.map (min_value g)).foldl max (min_value g c) = min_value g c
      · rw [if_pos hMx, List.findIdx_cons]
        simp [hMx, hM.trans hMx.le]
      · rw [if_neg hMx, List.findIdx_cons]
        have hlt : ¬ (cs.map (min_value g)).foldl max (min_value g c) ≤ min_value g c :=
          fun hle => hMx (le_antisymm hle hM)
        rw [decide_eq_false hlt]
        simp only [cond_false]
        congr 1
        omega
    · rw [if_neg hx, ih]
      simp only [max_eq_left (not_lt.mp hx)]
      by_cases hM : (cs.map (min_value g)).foldl max result = result
      · rw [if_pos hM, if_pos hM]
      · rw [if_neg hM, if_neg hM, List.findIdx_cons]
        have hrM : result ≤ (cs.map (min_value g)).foldl max result :=
          le_foldl_max _ _
        have hlt : ¬ (cs.map (min_value g)).foldl max result ≤ min_value g c :=
          fun hle => hM (le_antisymm
            (hle.trans ((not_lt.mp hx))) hrM)
        rw [decide_eq_false hlt]
        simp only [cond_false]
        congr 1
        omega

theorem genMinFold_eq_foldl (p : Nat) (cs : List GameTree) (v : EVal) :
    genMinFold cs p v = (cs.map (fun c => general_value c p)).foldl min v := by
  induction cs generalizing v with
  | nil => rfl
  | cons c cs ih =>
    by_cases h : c.player = p <;>
      simp [genMinFold, general_value, h, ih, List.foldl_cons]

theorem genMaxFold_eq_foldl (p : Nat) (cs : List GameTree) (v : EVal) :
    genMaxFold cs p v = (cs.map (fun c => general_value c p)).foldl max v := by
  induction cs generalizing v with
  | nil => rfl
  | cons c cs ih =>
    by_cases h : c.player = p <;>
      simp [genMaxFold, general_value, h, ih, List.foldl_cons]

/-- C8: on a problem whose start state has an empty available-action set
(a childless non-terminal start state, or a terminal start state), each of
the four entry points returns the "no action" sentinel `none`; being total
Lean functions, none of them can raise an error. -/
theorem claim_empty_root_actions_none (p pl : Nat) (rws : List ℤ)
    (cutoff : Nat) (f : GameTree → ℤ) :
    minimax (.node p []) = none ∧
    alpha_beta (.node p []) = none ∧
    alpha_beta_cutoff (.node p []) cutoff f = none ∧
    general_minimax (.node p []) = none ∧
    minimax (.terminal pl rws) = none ∧
    alpha_beta (.terminal pl rws) = none ∧
    alpha_beta_cutoff (.terminal pl rws) cutoff f = none ∧
    general_minimax (.terminal pl rws) = none :=
  ⟨rfl, rfl, rfl, rfl, rfl, rfl, rfl, rfl⟩

/-- C4: in `minimax` and `alpha_beta`, a terminal state is evaluated as the
reward of the single fixed player to move at the start state (`g.player`),
regardless of the player `t` itself says is to move, and the max and min
helpers use that same fixed index. -/
theorem claim_terminal_eval_fixed_player (g t : GameTree)
    (h : t.isTerminal = true) (alpha beta : EVal) :
    max_value g t = iv (t.evalState.getD g.player 0) ∧
    min_value g t = iv (t.evalState.getD g.player 0) ∧
    alpha_beta_max g t alpha beta = iv (t.evalState.getD g.player 0) ∧
    alpha_beta_min g t alpha beta = iv (t.evalState.getD g.player 0) := by
  cases t with
  | terminal pl rws => exact ⟨rfl, rfl, rfl, rfl⟩
  | node pl cs => simp [GameTree.isTerminal] at h

/-- Witness for C4: a terminal where player `1` moves, inside a game whose
start player is `0`, is evaluated as player `0`'s reward `3`. -/
theorem claim_terminal_eval_fixed_player_witness :
    max_value (.node 0 [.terminal 1 [3, 7]]) (.terminal 1 [3, 7]) = iv 3 ∧
    min_value (.node 0 [.terminal 1 [3, 7]]) (.terminal 1 [3, 7]) = iv 3 ∧
    alpha_beta_max (.node 0 [.terminal 1 [3, 7]]) (.terminal 1 [3, 7]) ⊥ ⊤ = iv 3 ∧
    alpha_beta_min (.node 0 [.terminal 1 [3, 7]]) (.terminal 1 [3, 7]) ⊥ ⊤ = iv 3 :=
  claim_terminal_eval_fixed_player (.node 0 [.terminal 1 [3, 7]])
    (.terminal 1 [3, 7]) rfl ⊥ ⊤

/-- C6: in `alpha_beta_cutoff`'s helpers, a state that is terminal and sits
exactly at the cutoff ply is evaluated as the fixed root player's exact
terminal reward — independent of `eval_func`, which is never applied to it
(its `eval_func` call log is empty). -/
theorem claim_cutoff_terminal_precedence (t : GameTree)
    (h : t.isTerminal = true) (alpha beta : EVal) (cutoff depth : Nat)
    (_hd : depth = cutoff) (f : GameTree → ℤ) (p : Nat) :
    cutoff_max t alpha beta cutoff depth f p = iv (t.evalState.getD p 0) ∧
    cutoff_min t alpha beta cutoff depth f p = iv (t.evalState.getD p 0) ∧
    (cutoff_maxL t alpha beta cutoff depth f p).2.2 = [] ∧
    (cutoff_minL t alpha beta cutoff depth f p).2.2 = [] := by
  cases t with
  | terminal pl rws => exact ⟨rfl, rfl, rfl, rfl⟩
  | node pl cs => simp [GameTree.isTerminal] at h

/-- Witness for C6: a terminal hit exactly at the cutoff ply (depth 2,
cutoff 2) returns the exact reward `4`; the heuristic (constantly `99`) is
never consulted. -/
theorem claim_cutoff_terminal_precedence_witness :
    cutoff_max (.terminal 1 [4, 0]) ⊥ ⊤ 2 2 (fun _ => 99) 0 = iv 4 ∧
    cutoff_min (.terminal 1 [4, 0]) ⊥ ⊤ 2 2 (fun _ => 99) 0 = iv 4 ∧
    (cutoff_maxL (.terminal 1 [4, 0]) ⊥ ⊤ 2 2 (fun _ => 99) 0).2.2 = [] ∧
    (cutoff_minL (.terminal 1 [4, 0]) ⊥ ⊤ 2 2 (fun _ => 99) 0).2.2 = [] :=
  claim_cutoff_terminal_precedence (.terminal 1 [4, 0]) rfl ⊥ ⊤ 2 2 rfl
    (fun _ => 99) 0

/-- C2 fails on the code: at the reachable node `.node 1 [...]` (controlled
by player `1`, not the root's player `0`), `general_min` returns `3`, the
minimum of the root player's child values, while their maximum is `5`
(computed by `general_max` on the same node). -/
theorem claim_general_min_counterexample :
    general_minimax (.node 0 [.node 1 [.terminal 0 [3], .terminal 0 [5]]]) =
      some 0 ∧
    general_min (.node 1 [.terminal 0 [3], .terminal 0 [5]]) 0 = iv 3 ∧
    general_max (.node 1 [.terminal 0 [3], .terminal 0 [5]]) 0 = iv 5 ∧
    iv 3 ≠ iv 5 := by
  decide

/-- C2 (amended): on any non-terminal node, `general_min` returns the
minimum — not the maximum — over the node's children of the root player's
backed-up values (each child evaluated by the helper chosen by its player
to move): it both is attained at some child and bounds every child from
below. -/
theorem claim_general_min_minimizes (pl p : Nat) (cs : List GameTree)
    (h : cs ≠ []) :
    (∃ c ∈ cs, general_min (.node pl cs) p = general_value c p) ∧
    (∀ c ∈ cs, general_min (.node pl cs) p ≤ general_value c p) := by
  have hg : general_min (.node pl cs) p =
      (cs.map (fun c => general_value c p)).foldl min ⊤ := by
    rw [general_min]
    exact genMinFold_eq_foldl p cs ⊤
  constructor
  · rcases foldl_min_attained (cs.map fun c => general_value c p) ⊤ with
      he | ⟨x, hx, he⟩
    · cases cs with
      | nil => exact absurd rfl h
      | cons c cs' =>
        refine ⟨c, List.mem_cons_self c cs', le_antisymm ?_ ?_⟩
        · rw [hg]
          exact foldl_min_mem_le _ ⊤ _
            (List.mem_map_of_mem _ (List.mem_cons_self c cs'))
        · rw [hg, he]
          exact le_top
    · rcases List.mem_map.mp hx with ⟨c, hc, rfl⟩
      exact ⟨c, hc, by rw [hg, he]⟩
  · intro c hc
    rw [hg]
    exact foldl_min_mem_le _ ⊤ _ (List.mem_map_of_mem _ hc)

/-- Witness for C2 (amended): at the concrete node of the counterexample the
minimum `3` is attained and bounds both children from below. -/
theorem claim_general_min_minimizes_witness :
    (∃ c ∈ [GameTree.terminal 0 [3], GameTree.terminal 0 [5]],
      general_min (.node 1 [.terminal 0 [3], .terminal 0 [5]]) 0 =
        general_value c 0) ∧
    (∀ c ∈ [GameTree.terminal 0 [3], GameTree.terminal 0 [5]],
      general_min (.node 1 [.terminal 0 [3], .terminal 0 [5]]) 0 ≤
        general_value c 0) :=
  claim_general_min_minimizes 1 0 _ (List.cons_ne_nil _ _)

/-! ### Equivalence of `alpha_beta` and `minimax` (fail-soft bounds) -/

theorem abMaxFold_cons (g c : GameTree) (cs : List GameTree)
    (v alpha beta : EVal) :
    abMaxFold g (c :: cs) v alpha beta =
      if beta ≤ max v (alpha_beta_min g c alpha beta)
      then max v (alpha_beta_min g c alpha beta)
      else abMaxFold g cs (max v (alpha_beta_min g c alpha beta))
        (max alpha (max v (alpha_beta_min g c alpha beta))) beta := rfl

theorem abMinFold_cons (g c : GameTree) (cs : List GameTree)
    (v alpha beta : EVal) :
    abMinFold g (c :: cs) v alpha beta =
      if min v (alpha_beta_max g c alpha beta) ≤ alpha
      then min v (alpha_beta_max g c alpha beta)
      else abMinFold g cs (min v (alpha_beta_max g c alpha beta))
        alpha (min beta (min v (alpha_beta_max g c alpha beta))) := rfl

theorem maxFold_eq_foldl (g : GameTree) (cs : List GameTree) (v : EVal) :
    maxFold g cs v = (cs.map (min_value g)).foldl max v := by
  induction cs generalizing v with
  | nil => rfl
  | cons c cs ih =>
    rw [maxFold, ih, List.map_cons, List.foldl_cons]

theorem minFold_eq_foldl (g : GameTree) (cs : List GameTree) (v : EVal) :
    minFold g cs v = (cs.map (max_value g)).foldl min v := by
  induction cs generalizing v with
  | nil => rfl
  | cons c cs ih =>
    rw [minFold, ih, List.map_cons, List.foldl_cons]

theorem maxFold_eq_max (g : GameTree) (cs : List GameTree) (w : EVal) :
    maxFold g cs w = max w ((cs.map (min_value g)).foldl max ⊥) := by
  rw [maxFold_eq_foldl, ← foldl_max_init]
  rw [max_eq_left bot_le]

theorem minFold_eq_min (g : GameTree) (cs : List GameTree) (w : EVal) :
    minFold g cs w = min w ((cs.map (max_value g)).foldl min ⊤) := by
  rw [minFold_eq_foldl, ← foldl_min_init]
  rw [min_eq_left le_top]

theorem le_maxFold (g : GameTree) (cs : List GameTree) (v : EVal) :
    v ≤ maxFold g cs v := by
  rw [maxFold_eq_foldl]
  exact le_foldl_max _ _

theorem minFold_le (g : GameTree) (cs : List GameTree) (v : EVal) :
    minFold g cs v ≤ v := by
  rw [minFold_eq_foldl]
  exact foldl_min_le _ _

theorem abMaxFold_ge (g : GameTree) (cs : List GameTree) :
    ∀ v alpha beta : EVal, v ≤ abMaxFold g cs v alpha beta := by
  induction cs with
  | nil => intro v alpha beta; exact le_refl v
  | cons c cs ih =>
    intro v alpha beta
    rw [abMaxFold_cons]
    by_cases h : beta ≤ max v (alpha_beta_min g c alpha beta)
    · rw [if_pos h]; exact le_max_left _ _
    · rw [if_neg h]
      exact le_trans (le_max_left _ _) (ih _ _ _)

theorem abMinFold_le (g : GameTree) (cs : List GameTree) :
    ∀ v alpha beta : EVal, abMinFold g cs v alpha beta ≤ v := by
  induction cs with
  | nil => intro v alpha beta; exact le_refl v
  | cons c cs ih =>
    intro v alpha beta
    rw [abMinFold_cons]
    by_cases h : min v (alpha_beta_max g c alpha beta) ≤ alpha
    · rw [if_pos h]; exact min_le_left _ _
    · rw [if_neg h]
      exact le_trans (ih _ _ _) (min_le_left _ _)

theorem maxFold_cons (g c : GameTree) (cs : List GameTree) (v : EVal) :
    maxFold g (c :: cs) v = maxFold g cs (max v (min_value g c)) := rfl

theorem minFold_cons (g c : GameTree) (cs : List GameTree) (v : EVal) :
    minFold g (c :: cs) v = minFold g cs (min v (max_value g c)) := rfl

theorem abMaxFold_approx (g : GameTree) (cs : List GameTree) :
    (∀ c ∈ cs, ∀ alpha beta : EVal, alpha < beta →
      Approx (alpha_beta_min g c alpha beta) (min_value g c) alpha beta) →
    ∀ v alpha beta : EVal, v ≤ alpha → alpha < beta →
      Approx (abMaxFold g cs v alpha beta) (maxFold g cs v) alpha beta := by
  induction cs with
  | nil =>
    intro _ v alpha beta _ _
    exact ⟨fun _ => le_refl _, fun _ _ => rfl, fun _ => le_refl _⟩
  | cons c cs ih =>
    intro hc v alpha beta hva hab
    obtain ⟨h1, h2, h3⟩ := hc c (List.mem_cons_self c cs) alpha beta hab
    have ihcs := ih (fun c' hc' => hc c' (List.mem_cons_of_mem c hc'))
    rw [abMaxFold_cons, maxFold_cons]
    set r1 := alpha_beta_min g c alpha beta with hr1d
    set gc := min_value g c with hgcd
    set K := (cs.map (min_value g)).foldl max ⊥ with hKd
    by_cases hret : beta ≤ max v r1
    · rw [if_pos hret]
      have hvb : v < beta := lt_of_le_of_lt hva hab
      have hvr1 : v ≤ r1 := by
        by_contra hnot
        exact absurd
          (le_trans hret (le_of_eq (max_eq_left (le_of_not_le hnot))))
          (not_le.mpr hvb)
      rw [max_eq_right hvr1] at hret ⊢
      refine ⟨?_, ?_, ?_⟩
      · intro hle
        exact absurd (lt_of_lt_of_le hab hret) (not_lt.mpr hle)
      · intro _ hlt
        exact absurd hret (not_le.mpr hlt)
      · intro _
        exact le_trans (h3 hret)
          (le_trans (le_max_right v gc) (le_maxFold g cs _))
    · rw [if_neg hret]
      have hv'b : max v r1 < beta := not_le.mp hret
      have hr1b : r1 < beta := lt_of_le_of_lt (le_max_right _ _) hv'b
      obtain ⟨ih1, ih2, ih3⟩ :=
        ihcs (max v r1) (max alpha (max v r1)) beta
          (le_max_right _ _) (max_lt hab hv'b)
      have hvr : max v r1 ≤ abMaxFold g cs (max v r1)
          (max alpha (max v r1)) beta := abMaxFold_ge g cs _ _ _
      refine ⟨?_, ?_, ?_⟩
      · -- result at or below alpha: the exact value is bounded by it
        intro hra
        have hr1a : r1 ≤ alpha :=
          le_trans (le_trans (le_max_right v r1) hvr) hra
        have hgc1 : gc ≤ r1 := h1 hr1a
        have hG' : maxFold g cs (max v r1) ≤
            abMaxFold g cs (max v r1) (max alpha (max v r1)) beta :=
          ih1 (le_trans hra (le_max_left _ _))
        have hmono : maxFold g cs (max v gc) ≤ maxFold g cs (max v r1) := by
          rw [maxFold_eq_max, maxFold_eq_max]
          exact max_le_max (max_le_max (le_refl v) hgc1) (le_refl _)
        exact le_trans hmono hG'
      · -- result strictly inside the window: it is the exact value
        intro har hrb
        by_cases hr' : abMaxFold g cs (max v r1) (max alpha (max v r1)) beta ≤
            max alpha (max v r1)
        · have hG' := ih1 hr'
          have hrv' : abMaxFold g cs (max v r1) (max alpha (max v r1)) beta ≤
              max v r1 := by
            rcases le_max_iff.mp hr' with h | h
            · exact absurd har (not_lt.mpr h)
            · exact h
          have heqv : abMaxFold g cs (max v r1) (max alpha (max v r1)) beta =
              max v r1 := le_antisymm hrv' hvr
          have har1 : alpha < r1 := by
            by_contra hn
            exact absurd har
              (not_lt.mpr (heqv.le.trans (max_le hva (le_of_not_lt hn))))
          have hr1gc : r1 = gc := h2 har1 hr1b
          rw [← hr1gc]
          exact le_antisymm (heqv.le.trans (le_maxFold g cs (max v r1))) hG'
        · have har' : max alpha (max v r1) <
              abMaxFold g cs (max v r1) (max alpha (max v r1)) beta :=
            not_le.mp hr'
          have heq := ih2 har' hrb
          by_cases hr1a : r1 ≤ alpha
          · have hgc1 : gc ≤ r1 := h1 hr1a
            have hvltr : v < abMaxFold g cs (max v r1)
                (max alpha (max v r1)) beta :=
              lt_of_le_of_lt (le_trans hva (le_max_left _ _)) har'
            have hr1ltr : r1 < abMaxFold g cs (max v r1)
                (max alpha (max v r1)) beta :=
              lt_of_le_of_lt (le_trans hr1a (le_max_left _ _)) har'
            rw [maxFold_eq_max] at heq
            have hrK : abMaxFold g cs (max v r1)
                (max alpha (max v r1)) beta = K := by
              rcases max_cases (max v r1) K with ⟨hm, _⟩ | ⟨hm, _⟩
              · rw [hm] at heq
                exact absurd heq (ne_of_gt (max_lt hvltr hr1ltr))
              · rw [hm] at heq
                exact heq
            have h5 : max v gc ≤ K := max_le (hrK ▸ hvltr).le
              (le_trans hgc1 (hrK ▸ hr1ltr).le)
            rw [maxFold_eq_max, max_eq_right h5]
            exact hrK
          · have hr1gc : r1 = gc := h2 (not_le.mp hr1a) hr1b
            rw [← hr1gc]
            exact heq
      · -- result at or above beta: it bounds the exact value from below
        intro hbr
        have hrG' := ih3 hbr
        by_cases hr1a : r1 ≤ alpha
        · have hvltr : v < abMaxFold g cs (max v r1)
              (max alpha (max v r1)) beta :=
            lt_of_le_of_lt hva (lt_of_lt_of_le hab hbr)
          have hr1ltr : r1 < abMaxFold g cs (max v r1)
              (max alpha (max v r1)) beta :=
            lt_of_le_of_lt hr1a (lt_of_lt_of_le hab hbr)
          rw [maxFold_eq_max] at hrG'
          have hrK : abMaxFold g cs (max v r1)
              (max alpha (max v r1)) beta ≤ K := by
            rcases le_max_iff.mp hrG' with h | h
            · rcases le_max_iff.mp h with h' | h'
              · exact absurd h' (not_le.mpr hvltr)
              · exact absurd h' (not_le.mpr hr1ltr)
            · exact h
          rw [maxFold_eq_max]
          exact le_trans hrK (le_max_right _ _)
        · have hr1gc : r1 = gc := h2 (not_le.mp hr1a) hr1b
          rw [← hr1gc]
          exact hrG'

theorem abMinFold_approx (g : GameTree) (cs : List GameTree) :
    (∀ c ∈ cs, ∀ alpha beta : EVal, alpha < beta →
      Approx (alpha_beta_max g c alpha beta) (max_value g c) alpha beta) →
    ∀ v alpha beta : EVal, beta ≤ v → alpha < beta →
      Approx (abMinFold g cs v alpha beta) (minFold g cs v) alpha beta := by
  induction cs with
  | nil =>
    intro _ v alpha beta _ _
    exact ⟨fun _ => le_refl _, fun _ _ => rfl, fun _ => le_refl _⟩
  | cons c cs ih =>
    intro hc v alpha beta hbv hab
    obtain ⟨h1, h2, h3⟩ := hc c (List.mem_cons_self c cs) alpha beta hab
    have ihcs := ih (fun c' hc' => hc c' (List.mem_cons_of_mem c hc'))
    rw [abMinFold_cons, minFold_cons]
    set r1 := alpha_beta_max g c alpha beta with hr1d
    set gc := max_value g c with hgcd
    set K := (cs.map (max_value g)).foldl min ⊤ with hKd
    by_cases hret : min v r1 ≤ alpha
    · rw [if_pos hret]
      have hav : alpha < v := lt_of_lt_of_le hab hbv
      have hr1v : r1 ≤ v := by
        by_contra hnot
        exact absurd
          (le_trans (le_of_eq (min_eq_left (le_of_not_le hnot)).symm) hret)
          (not_le.mpr hav)
      rw [min_eq_right hr1v] at hret ⊢
      refine ⟨?_, ?_, ?_⟩
      · intro _
        exact le_trans (le_trans (minFold_le g cs _) (min_le_right v gc))
          (h1 hret)
      · intro hlt _
        exact absurd hret (not_le.mpr hlt)
      · intro hbr
        exact absurd (lt_of_lt_of_le hab (le_trans hbr hret))
          (lt_irrefl alpha)
    · rw [if_neg hret]
      have hv'a : alpha < min v r1 := not_le.mp hret
      have hr1a : alpha < r1 := lt_of_lt_of_le hv'a (min_le_right _ _)
      obtain ⟨ih1, ih2, ih3⟩ :=
        ihcs (min v r1) alpha (min beta (min v r1))
          (min_le_right _ _) (lt_min hab hv'a)
      have hvr : abMinFold g cs (min v r1) alpha (min beta (min v r1)) ≤
          min v r1 := abMinFold_le g cs _ _ _
      refine ⟨?_, ?_, ?_⟩
      · -- result at or below alpha: it bounds the exact value from above
        intro hra
        have hrG' := ih1 hra
        by_cases hbr1 : beta ≤ r1
        · have h3' : r1 ≤ gc := h3 hbr1
          have hvgtr : abMinFold g cs (min v r1) alpha
              (min beta (min v r1)) < v :=
            lt_of_le_of_lt hra (lt_of_lt_of_le hab hbv)
          have hr1gtr : abMinFold g cs (min v r1) alpha
              (min beta (min v r1)) < r1 :=
            lt_of_le_of_lt hra (lt_of_lt_of_le hab hbr1)
          rw [minFold_eq_min] at hrG'
          have hrK : K ≤ abMinFold g cs (min v r1) alpha
              (min beta (min v r1)) := by
            rcases min_le_iff.mp hrG' with h | h
            · exact absurd h (not_le.mpr (lt_min hvgtr hr1gtr))
            · exact h
          rw [minFold_eq_min]
          exact le_trans (min_le_right _ _) hrK
        · have hr1gc : r1 = gc := h2 hr1a (not_le.mp hbr1)
          rw [← hr1gc]
          exact hrG'
      · -- result strictly inside the window: it is the exact value
        intro har hrb
        by_cases hr' : min beta (min v r1) ≤
            abMinFold g cs (min v r1) alpha (min beta (min v r1))
        · have hG' := ih3 hr'
          have hrv' : min v r1 ≤
              abMinFold g cs (min v r1) alpha (min beta (min v r1)) := by
            rcases min_le_iff.mp hr' with h | h
            · exact absurd hrb (not_lt.mpr h)
            · exact h
          have heqv : abMinFold g cs (min v r1) alpha (min beta (min v r1)) =
              min v r1 := le_antisymm hvr hrv'
          have hbr1 : r1 < beta := by
            by_contra hn
            have hge : beta ≤ abMinFold g cs (min v r1) alpha
                (min beta (min v r1)) := by
              rw [heqv]
              exact le_min hbv (le_of_not_lt hn)
            exact absurd hrb (not_lt.mpr hge)
          have hr1gc : r1 = gc := h2 hr1a hbr1
          rw [← hr1gc]
          exact le_antisymm hG'
            ((minFold_le g cs (min v r1)).trans heqv.ge)
        · have har' : abMinFold g cs (min v r1) alpha (min beta (min v r1)) <
              min beta (min v r1) := not_le.mp hr'
          have heq := ih2 har har'
          by_cases hbr1 : beta ≤ r1
          · have h3' : r1 ≤ gc := h3 hbr1
            have hvgtr : abMinFold g cs (min v r1) alpha
                (min beta (min v r1)) < v := lt_of_lt_of_le hrb hbv
            have hr1gtr : abMinFold g cs (min v r1) alpha
                (min beta (min v r1)) < r1 := lt_of_lt_of_le hrb hbr1
            rw [minFold_eq_min] at heq
            have hrK : abMinFold g cs (min v r1) alpha
                (min beta (min v r1)) = K := by
              rcases min_cases (min v r1) K with ⟨hm, _⟩ | ⟨hm, _⟩
              · rw [hm] at heq
                exact absurd heq (ne_of_lt (lt_min hvgtr hr1gtr))
              · rw [hm] at heq
                exact heq
            rw [hrK] at hvgtr hr1gtr
            have h5 : K ≤ min v gc :=
              le_min hvgtr.le (le_trans hr1gtr.le h3')
            rw [minFold_eq_min, min_eq_right h5]
            exact hrK
          · have hr1gc : r1 = gc := h2 hr1a (not_le.mp hbr1)
            rw [← hr1gc]
            exact heq
      · -- result at or above beta: the exact value is at least it
        intro hbr
        have hbr1 : beta ≤ r1 :=
          le_trans hbr (le_trans hvr (min_le_right v r1))
        have h3' : r1 ≤ gc := h3 hbr1
        have hrG' := ih3 (le_trans (min_le_left _ _) hbr)
        have hmono : minFold g cs (min v r1) ≤ minFold g cs (min v gc) := by
          rw [minFold_eq_min, minFold_eq_min]
          exact min_le_min (min_le_min (le_refl v) h3') (le_refl _)
        exact le_trans hrG' hmono

theorem sizeOf_lt_of_mem_children {c : GameTree} {cs : List GameTree}
    (h : c ∈ cs) (pl : Nat) : sizeOf c < sizeOf (GameTree.node pl cs) := by
  have h1 : sizeOf c < sizeOf cs := List.sizeOf_lt_of_mem h
  simp only [GameTree.node.sizeOf_spec]
  omega

/-- Fail-soft correctness of the alpha-beta helpers against the minimax
helpers, for every window `alpha < beta`. -/
theorem ab_approx : ∀ (n : Nat) (g t : GameTree), sizeOf t ≤ n →
    (∀ alpha beta : EVal, alpha < beta →
      Approx (alpha_beta_max g t alpha beta) (max_value g t) alpha beta) ∧
    (∀ alpha beta : EVal, alpha < beta →
      Approx (alpha_beta_min g t alpha beta) (min_value g t) alpha beta) := by
  intro n
  induction n with
  | zero =>
    intro g t ht
    have : 0 < sizeOf t := by
      cases t with
      | terminal pl rws =>
        simp only [GameTree.terminal.sizeOf_spec]
        omega
      | node pl cs =>
        simp only [GameTree.node.sizeOf_spec]
        omega
    omega
  | succ n ihn =>
    intro g t ht
    cases t with
    | terminal pl rws =>
      exact ⟨fun _ _ _ => ⟨fun _ => le_refl _, fun _ _ => rfl,
          fun _ => le_refl _⟩,
        fun _ _ _ => ⟨fun _ => le_refl _, fun _ _ => rfl,
          fun _ => le_refl _⟩⟩
    | node pl cs =>
      have hsub : ∀ c ∈ cs, sizeOf c ≤ n := by
        intro c hcmem
        have := sizeOf_lt_of_mem_children hcmem pl
        omega
      constructor
      · intro alpha beta hab
        rw [alpha_beta_max, max_value]
        exact abMaxFold_approx g cs
          (fun c hcmem => (ihn g c (hsub c hcmem)).2) ⊥ alpha beta bot_le hab
      · intro alpha beta hab
        rw [alpha_beta_min, min_value]
        exact abMinFold_approx g cs
          (fun c hcmem => (ihn g c (hsub c hcmem)).1) ⊤ alpha beta le_top hab

theorem minimaxLoop_cons (g c : GameTree) (cs : List GameTree) (i : Nat)
    (act : Option Nat) (result : EVal) :
    minimaxLoop g (c :: cs) i act result =
      if result < min_value g c
      then minimaxLoop g cs (i + 1) (some i) (min_value g c)
      else minimaxLoop g cs (i + 1) act result := rfl

theorem alphaBetaLoop_cons (g c : GameTree) (cs : List GameTree) (i : Nat)
    (act : Option Nat) (result alpha beta : EVal) :
    alphaBetaLoop g (c :: cs) i act result alpha beta =
      if beta ≤ alpha_beta_min g c alpha beta
      then (if result < alpha_beta_min g c alpha beta then some i else act)
      else alphaBetaLoop g cs (i + 1)
        (if result < alpha_beta_min g c alpha beta then some i else act)
        (if result < alpha_beta_min g c alpha beta
          then alpha_beta_min g c alpha beta else result)
        (max alpha (alpha_beta_min g c alpha beta)) beta := rfl

theorem minimaxLoop_of_top (g : GameTree) (cs : List GameTree) :
    ∀ (i : Nat) (act : Option Nat), minimaxLoop g cs i act ⊤ = act := by
  induction cs with
  | nil => intro i act; rfl
  | cons c cs ih =>
    intro i act
    rw [minimaxLoop_cons, if_neg (not_top_lt), ih]

/-- At the root, with `beta = +inf` and `alpha` maintained equal to the
running best value, the alpha-beta loop takes exactly the same decisions as
the minimax loop. -/
theorem alphaBetaLoop_eq_minimaxLoop (g : GameTree) (cs : List GameTree)
    (hc : ∀ c ∈ cs, ∀ alpha beta : EVal, alpha < beta →
      Approx (alpha_beta_min g c alpha beta) (min_value g c) alpha beta) :
    ∀ (i : Nat) (act : Option Nat) (result : EVal), result < ⊤ →
      alphaBetaLoop g cs i act result result ⊤ =
        minimaxLoop g cs i act result := by
  induction cs with
  | nil => intro i act result _; rfl
  | cons c cs ih =>
    intro i act result hrt
    obtain ⟨h1, h2, h3⟩ := hc c (List.mem_cons_self c cs) result ⊤ hrt
    have ihcs := ih (fun c' hc' => hc c' (List.mem_cons_of_mem c hc'))
    rw [alphaBetaLoop_cons, minimaxLoop_cons]
    by_cases hle : alpha_beta_min g c result ⊤ ≤ result
    · have hgc : min_value g c ≤ alpha_beta_min g c result ⊤ := h1 hle
      have hnlt : ¬ result < alpha_beta_min g c result ⊤ := not_lt.mpr hle
      have hnltg : ¬ result < min_value g c := not_lt.mpr (le_trans hgc hle)
      have hnret : ¬ (⊤ : EVal) ≤ alpha_beta_min g c result ⊤ := by
        intro htop
        exact absurd (lt_of_le_of_lt (le_trans htop hle) hrt) (lt_irrefl _)
      rw [if_neg hnret, if_neg hnlt, if_neg hnlt, if_neg hnltg,
        max_eq_left hle]
      exact ihcs (i + 1) act result hrt
    · have hlt : result < alpha_beta_min g c result ⊤ := not_le.mp hle
      by_cases htop : (⊤ : EVal) ≤ alpha_beta_min g c result ⊤
      · have hgtop : (⊤ : EVal) ≤ min_value g c := le_trans htop (h3 htop)
        have hltg : result < min_value g c := lt_of_lt_of_le hrt hgtop
        rw [if_pos htop, if_pos hlt, if_pos hltg, top_unique hgtop,
          minimaxLoop_of_top]
      · have hvlt : alpha_beta_min g c result ⊤ < ⊤ := not_le.mp htop
        have heq : alpha_beta_min g c result ⊤ = min_value g c := h2 hlt hvlt
        have hltg : result < min_value g c := heq ▸ hlt
        rw [if_neg htop, if_pos hlt, if_pos hlt, if_pos hltg,
          max_eq_right hlt.le, heq]
        exact ihcs (i + 1) (some i) (min_value g c) (heq ▸ hvlt)

/-- C5: `minimax` returns the first root action attaining the strictly
greatest backed-up value: an action replaces the current best only on a
strictly greater value, so a later action whose value merely equals the
best leaves the earlier action selected, and when no value exceeds the
initial `-inf` no action is returned. -/
theorem claim_minimax_first_argmax (g : GameTree) :
    minimax g = argmaxFirst (g.children.map (min_value g)) := by
  rw [minimax, argmaxFirst, minimaxLoop_spec]
  simp only [Nat.zero_add]

/-- C1: on every finite game instance, `alpha_beta` selects exactly the
same root action as `minimax` (so certainly an action of the same backed-up
value, and the same action absent ties), and the alpha-beta recursion on
the full window `(-inf, +inf)` computes exactly the minimax backed-up
value. -/
theorem claim_alpha_beta_equals_minimax (g : GameTree) :
    alpha_beta g = minimax g ∧
    alpha_beta_max g g ⊥ ⊤ = max_value g g := by
  constructor
  · rw [alpha_beta, minimax]
    exact alphaBetaLoop_eq_minimaxLoop g g.children
      (fun c _ alpha beta hab =>
        (ab_approx (sizeOf c) g c (le_refl _)).2 alpha beta hab)
      0 none ⊥ eval_bot_lt_top
  · obtain ⟨ha1, ha2, ha3⟩ :=
      (ab_approx (sizeOf g) g g (le_refl _)).1 ⊥ ⊤ eval_bot_lt_top
    rcases le_or_lt (alpha_beta_max g g ⊥ ⊤) ⊥ with hle | hgt
    · have hb : alpha_beta_max g g ⊥ ⊤ = ⊥ := le_bot_iff.mp hle
      have hmv := ha1 hle
      rw [hb]
      exact (le_bot_iff.mp (hb ▸ hmv)).symm
    · rcases lt_or_le (alpha_beta_max g g ⊥ ⊤) ⊤ with hlt | hge
      · exact ha2 hgt hlt
      · have ht : alpha_beta_max g g ⊥ ⊤ = ⊤ := top_le_iff.mp hge
        have hmv := ha3 hge
        rw [ht]
        exact (top_le_iff.mp (ht ▸ hmv)).symm

/-! ### `general_minimax` versus `minimax` -/

theorem genMaxFold_cons (c : GameTree) (cs : List GameTree) (p : Nat)
    (v : EVal) :
    genMaxFold (c :: cs) p v =
      if c.player = p then genMaxFold cs p (max v (general_max c p))
      else genMaxFold cs p (max v (general_min c p)) := rfl

theorem genMinFold_cons (c : GameTree) (cs : List GameTree) (p : Nat)
    (v : EVal) :
    genMinFold (c :: cs) p v =
      if c.player = p then genMinFold cs p (min v (general_max c p))
      else genMinFold cs p (min v (general_min c p)) := rfl

theorem altFromList_mem {p : Nat} {b : Bool} {cs : List GameTree}
    (h : altFromList p b cs = true) : ∀ c ∈ cs, altFrom p b c = true := by
  induction cs with
  | nil => intro c hc; cases hc
  | cons c' cs ih =>
    rw [altFromList, Bool.and_eq_true] at h
    obtain ⟨h1, h2⟩ := h
    intro c hc
    rcases List.mem_cons.mp hc with rfl | hmem
    · exact h1
    · exact ih h2 c hmem

theorem genMaxFold_eq_maxFold (g : GameTree) (cs : List GameTree) :
    (∀ c ∈ cs, (if c.player = g.player then general_max c g.player
      else general_min c g.player) = min_value g c) →
    ∀ v, genMaxFold cs g.player v = maxFold g cs v := by
  induction cs with
  | nil => intro _ v; rfl
  | cons c cs ih =>
    intro hc v
    have hv := hc c (List.mem_cons_self c cs)
    have ihcs := ih (fun c' hc' => hc c' (List.mem_cons_of_mem c hc'))
    rw [genMaxFold_cons, maxFold_cons]
    by_cases h : c.player = g.player
    · rw [if_pos h] at hv ⊢
      rw [hv, ihcs]
    · rw [if_neg h] at hv ⊢
      rw [hv, ihcs]

theorem genMinFold_eq_minFold (g : GameTree) (cs : List GameTree) :
    (∀ c ∈ cs, (if c.player = g.player then general_max c g.player
      else general_min c g.player) = max_value g c) →
    ∀ v, genMinFold cs g.player v = minFold g cs v := by
  induction cs with
  | nil => intro _ v; rfl
  | cons c cs ih =>
    intro hc v
    have hv := hc c (List.mem_cons_self c cs)
    have ihcs := ih (fun c' hc' => hc c' (List.mem_cons_of_mem c hc'))
    rw [genMinFold_cons, minFold_cons]
    by_cases h : c.player = g.player
    · rw [if_pos h] at hv ⊢
      rw [hv, ihcs]
    · rw [if_neg h] at hv ⊢
      rw [hv, ihcs]

/-- Under strict alternation relative to the root player, the dispatched
generalized helper computes exactly the corresponding minimax helper. -/
theorem general_dispatch_eq (g : GameTree) :
    ∀ (n : Nat) (t : GameTree), sizeOf t ≤ n →
    (altFrom g.player true t = true →
      (if t.player = g.player then general_max t g.player
        else general_min t g.player) = max_value g t) ∧
    (altFrom g.player false t = true →
      (if t.player = g.player then general_max t g.player
        else general_min t g.player) = min_value g t) := by
  intro n
  induction n with
  | zero =>
    intro t ht
    have : 0 < sizeOf t := by
      cases t with
      | terminal pl rws =>
        simp only [GameTree.terminal.sizeOf_spec]
        omega
      | node pl cs =>
        simp only [GameTree.node.sizeOf_spec]
        omega
    omega
  | succ n ihn =>
    intro t ht
    cases t with
    | terminal pl rws =>
      have hterm : (if (GameTree.terminal pl rws).player = g.player
          then general_max (.terminal pl rws) g.player
          else general_min (.terminal pl rws) g.player) =
            iv (rws.getD g.player 0) := by
        by_cases h : (GameTree.terminal pl rws).player = g.player
        · rw [if_pos h]
          rfl
        · rw [if_neg h]
          rfl
      exact ⟨fun _ => hterm, fun _ => hterm⟩
    | node pl cs =>
      have hsub : ∀ c ∈ cs, sizeOf c ≤ n := by
        intro c hcmem
        have := sizeOf_lt_of_mem_children hcmem pl
        omega
      constructor
      · intro halt
        rw [altFrom, Bool.and_eq_true] at halt
        obtain ⟨hpl, hlist⟩ := halt
        have hpeq : (GameTree.node pl cs).player = g.player := by
          simpa using hpl
        rw [if_pos hpeq, general_max, max_value]
        exact genMaxFold_eq_maxFold g cs
          (fun c hcmem => (ihn c (hsub c hcmem)).2
            (altFromList_mem hlist c hcmem)) ⊥
      · intro halt
        rw [altFrom, Bool.and_eq_true] at halt
        obtain ⟨hpl, hlist⟩ := halt
        have hpne : ¬ (GameTree.node pl cs).player = g.player := by
          simpa using hpl
        rw [if_neg hpne, general_min, min_value]
        exact genMinFold_eq_minFold g cs
          (fun c hcmem => (ihn c (hsub c hcmem)).1
            (altFromList_mem hlist c hcmem)) ⊤

theorem generalLoop_eq_minimaxLoop (g : GameTree) (cs : List GameTree) :
    (∀ c ∈ cs, (if c.player = g.player then general_max c g.player
      else general_min c g.player) = min_value g c) →
    ∀ (i : Nat) (act : Option Nat) (m : EVal),
      generalLoop cs g.player i act m = minimaxLoop g cs i act m := by
  induction cs with
  | nil => intro _ i act m; rfl
  | cons c cs ih =>
    intro hc i act m
    have hv := hc c (List.mem_cons_self c cs)
    have ihcs := ih (fun c' hc' => hc c' (List.mem_cons_of_mem c hc'))
    show (if m < (if c.player = g.player then general_max c g.player
        else general_min c g.player)
      then generalLoop cs g.player (i + 1) (some i)
        (if c.player = g.player then general_max c g.player
          else general_min c g.player)
      else generalLoop cs g.player (i + 1) act m) = _
    rw [hv, minimaxLoop_cons]
    by_cases hm : m < min_value g c
    · rw [if_pos hm, if_pos hm, ihcs]
    · rw [if_neg hm, if_neg hm, ihcs]

/-- C3 fails on the code: a two-player, constant-sum, finite game in which
the root player moves twice in a row.  `minimax` unconditionally minimizes
at the first ply and picks the second action, while `general_minimax`
dispatches on the actual player to move, maximizes there, and picks the
first action. -/
theorem claim_general_vs_minimax_counterexample :
    twoPlayerB (.node 0 [.node 0 [.terminal 1 [10, -10], .terminal 1 [0, 0]],
      .terminal 1 [5, -5]]) = true ∧
    constSumB 0 (.node 0 [.node 0 [.terminal 1 [10, -10],
      .terminal 1 [0, 0]], .terminal 1 [5, -5]]) = true ∧
    minimax (.node 0 [.node 0 [.terminal 1 [10, -10], .terminal 1 [0, 0]],
      .terminal 1 [5, -5]]) = some 1 ∧
    general_minimax (.node 0 [.node 0 [.terminal 1 [10, -10],
      .terminal 1 [0, 0]], .terminal 1 [5, -5]]) = some 0 := by
  decide

/-- C3 (amended): whenever play strictly alternates relative to the root
player (below the root, the root player is to move exactly at even plies —
the situation `minimax`'s fixed max/min alternation presumes),
`general_minimax` selects exactly the same action as `minimax`. -/
theorem claim_general_minimax_alternating (g : GameTree)
    (h : altRoot g = true) : general_minimax g = minimax g := by
  cases g with
  | terminal pl rws => rfl
  | node pl cs =>
    rw [altRoot] at h
    rw [general_minimax, minimax]
    exact generalLoop_eq_minimaxLoop (.node pl cs) cs
      (fun c hcmem =>
        (general_dispatch_eq (.node pl cs) (sizeOf c) c (le_refl _)).2
          (altFromList_mem h c hcmem)) 0 none ⊥

/-- Witness for C3 (amended): on the spec's alternating depth-2 game the
two searches agree and pick the first action. -/
theorem claim_general_minimax_alternating_witness :
    general_minimax (.node 0 [.node 1 [.terminal 0 [3], .terminal 0 [5]],
        .node 1 [.terminal 0 [1], .terminal 0 [9]]]) =
      minimax (.node 0 [.node 1 [.terminal 0 [3], .terminal 0 [5]],
        .node 1 [.terminal 0 [1], .terminal 0 [9]]]) ∧
    general_minimax (.node 0 [.node 1 [.terminal 0 [3], .terminal 0 [5]],
        .node 1 [.terminal 0 [1], .terminal 0 [9]]]) = some 0 :=
  ⟨claim_general_minimax_alternating
    (.node 0 [.node 1 [.terminal 0 [3], .terminal 0 [5]],
      .node 1 [.terminal 0 [1], .terminal 0 [9]]]) (by decide), by decide⟩

/-! ### Where `alpha_beta_cutoff` applies `eval_func` -/

theorem statesAtDepth_child {c t : GameTree} : ∀ (n : Nat) (g : GameTree),
    t ∈ statesAtDepth n g → c ∈ t.children → c ∈ statesAtDepth (n + 1) g := by
  intro n
  induction n with
  | zero =>
    intro g hmem hc
    have ht : t = g := by simpa [statesAtDepth] using hmem
    subst ht
    rw [statesAtDepth]
    exact List.mem_flatten.mpr ⟨statesAtDepth 0 c,
      List.mem_map_of_mem _ hc, List.mem_singleton.mpr rfl⟩
  | succ n ih =>
    intro g hmem hc
    rw [statesAtDepth] at hmem
    obtain ⟨l, hl, htl⟩ := List.mem_flatten.mp hmem
    obtain ⟨c', hc', rfl⟩ := List.mem_map.mp hl
    have := ih c' htl hc
    rw [statesAtDepth]
    exact List.mem_flatten.mpr ⟨statesAtDepth (n + 1) c',
      List.mem_map_of_mem _ hc', this⟩

theorem coMaxFoldL_log_sub (cutoff depth : Nat) (f : GameTree → ℤ)
    (p : Nat) :
    ∀ (cs : List GameTree) (v alpha beta : EVal)
      (e : GameTree × Nat),
      e ∈ (coMaxFoldL cs v alpha beta cutoff depth f p).2.2 →
      ∃ c ∈ cs, ∃ alpha' beta' : EVal,
        e ∈ (cutoff_minL c alpha' beta' cutoff (depth + 1) f p).2.2 := by
  intro cs
  induction cs with
  | nil => intro v alpha beta e he; cases he
  | cons c cs ih =>
    intro v alpha beta e he
    rw [show coMaxFoldL (c :: cs) v alpha beta cutoff depth f p =
        if beta ≤ max v (cutoff_minL c alpha beta cutoff (depth + 1) f p).1
        then (max v (cutoff_minL c alpha beta cutoff (depth + 1) f p).1,
          (cutoff_minL c alpha beta cutoff (depth + 1) f p).2.1,
          (cutoff_minL c alpha beta cutoff (depth + 1) f p).2.2)
        else ((coMaxFoldL cs
            (max v (cutoff_minL c alpha beta cutoff (depth + 1) f p).1)
            (max alpha (max v
              (cutoff_minL c alpha beta cutoff (depth + 1) f p).1))
            beta cutoff depth f p).1,
          (cutoff_minL c alpha beta cutoff (depth + 1) f p).2.1 ++
            (coMaxFoldL cs
              (max v (cutoff_minL c alpha beta cutoff (depth + 1) f p).1)
              (max alpha (max v
                (cutoff_minL c alpha beta cutoff (depth + 1) f p).1))
              beta cutoff depth f p).2.1,
          (cutoff_minL c alpha beta cutoff (depth + 1) f p).2.2 ++
            (coMaxFoldL cs
              (max v (cutoff_minL c alpha beta cutoff (depth + 1) f p).1)
              (max alpha (max v
                (cutoff_minL c alpha beta cutoff (depth + 1) f p).1))
              beta cutoff depth f p).2.2) from rfl] at he
    by_cases hb : beta ≤ max v (cutoff_minL c alpha beta cutoff
        (depth + 1) f p).1
    · rw [if_pos hb] at he
      exact ⟨c, List.mem_cons_self c cs, alpha, beta, he⟩
    · rw [if_neg hb] at he
      rcases List.mem_append.mp he with h | h
      · exact ⟨c, List.mem_cons_self c cs, alpha, beta, h⟩
      · obtain ⟨c', hc', alpha', beta', h'⟩ := ih _ _ _ _ h
        exact ⟨c', List.mem_cons_of_mem c hc', alpha', beta', h'⟩

theorem coMinFoldL_log_sub (cutoff depth : Nat) (f : GameTree → ℤ)
    (p : Nat) :
    ∀ (cs : List GameTree) (v alpha beta : EVal)
      (e : GameTree × Nat),
      e ∈ (coMinFoldL cs v alpha beta cutoff depth f p).2.2 →
      ∃ c ∈ cs, ∃ alpha' beta' : EVal,
        e ∈ (cutoff_maxL c alpha' beta' cutoff (depth + 1) f p).2.2 := by
  intro cs
  induction cs with
  | nil => intro v alpha beta e he; cases he
  | cons c cs ih =>
    intro v alpha beta e he
    rw [show coMinFoldL (c :: cs) v alpha beta cutoff depth f p =
        if min v (cutoff_maxL c alpha beta cutoff (depth + 1) f p).1 ≤ alpha
        then (min v (cutoff_maxL c alpha beta cutoff (depth + 1) f p).1,
          (cutoff_maxL c alpha beta cutoff (depth + 1) f p).2.1,
          (cutoff_maxL c alpha beta cutoff (depth + 1) f p).2.2)
        else ((coMinFoldL cs
            (min v (cutoff_maxL c alpha beta cutoff (depth + 1) f p).1)
            alpha (min beta (min v
              (cutoff_maxL c alpha beta cutoff (depth + 1) f p).1))
            cutoff depth f p).1,
          (cutoff_maxL c alpha beta cutoff (depth + 1) f p).2.1 ++
            (coMinFoldL cs
              (min v (cutoff_maxL c alpha beta cutoff (depth + 1) f p).1)
              alpha (min beta (min v
                (cutoff_maxL c alpha beta cutoff (depth + 1) f p).1))
              cutoff depth f p).2.1,
          (cutoff_maxL c alpha beta cutoff (depth + 1) f p).2.2 ++
            (coMinFoldL cs
              (min v (cutoff_maxL c alpha beta cutoff (depth + 1) f p).1)
              alpha (min beta (min v
                (cutoff_maxL c alpha beta cutoff (depth + 1) f p).1))
              cutoff depth f p).2.2) from rfl] at he
    by_cases hb : min v (cutoff_maxL c alpha beta cutoff
        (depth + 1) f p).1 ≤ alpha
    · rw [if_pos hb] at he
      exact ⟨c, List.mem_cons_self c cs, alpha, beta, he⟩
    · rw [if_neg hb] at he
      rcases List.mem_append.mp he with h | h
      · exact ⟨c, List.mem_cons_self c cs, alpha, beta, h⟩
      · obtain ⟨c', hc', alpha', beta', h'⟩ := ih _ _ _ _ h
        exact ⟨c', List.mem_cons_of_mem c hc', alpha', beta', h'⟩

/-- Every `eval_func` call recorded by the cutoff helpers on a state
reached at ply `depth` happens at the cutoff ply, on a non-terminal state,
at the recorded tree depth below the root. -/
theorem cutoffL_log (g : GameTree) : ∀ (n : Nat) (t : GameTree),
    sizeOf t ≤ n → ∀ (depth : Nat), t ∈ statesAtDepth depth g →
    ∀ (alpha beta : EVal) (cutoff : Nat) (f : GameTree → ℤ) (p : Nat)
      (e : GameTree × Nat),
      (e ∈ (cutoff_maxL t alpha beta cutoff depth f p).2.2 ∨
        e ∈ (cutoff_minL t alpha beta cutoff depth f p).2.2) →
      e.2 = cutoff ∧ e.1.isTerminal = false ∧
        e.1 ∈ statesAtDepth e.2 g := by
  intro n
  induction n with
  | zero =>
    intro t ht
    have : 0 < sizeOf t := by
      cases t with
      | terminal pl rws =>
        simp only [GameTree.terminal.sizeOf_spec]
        omega
      | node pl cs =>
        simp only [GameTree.node.sizeOf_spec]
        omega
    omega
  | succ n ihn =>
    intro t ht depth hmem alpha beta cutoff f p e he
    cases t with
    | terminal pl rws =>
      rcases he with h | h
      · cases h
      · cases h
    | node pl cs =>
      have hsub : ∀ c ∈ cs, sizeOf c ≤ n := by
        intro c hcmem
        have := sizeOf_lt_of_mem_children hcmem pl
        omega
      by_cases hdc : depth = cutoff
      · have hlog : ∀ l : List (GameTree × Nat),
            l = [(GameTree.node pl cs, depth)] → e ∈ l →
            e.2 = cutoff ∧ e.1.isTerminal = false ∧
              e.1 ∈ statesAtDepth e.2 g := by
          intro l hl hel
          subst hl
          have : e = (GameTree.node pl cs, depth) :=
            List.mem_singleton.mp hel
          subst this
          exact ⟨hdc, rfl, by simpa using hmem⟩
        rcases he with h | h
        · rw [show cutoff_maxL (.node pl cs) alpha beta cutoff depth f p =
              if depth = cutoff
              then (iv (f (.node pl cs)), [], [(.node pl cs, depth)])
              else coMaxFoldL cs ⊥ alpha beta cutoff depth f p from rfl,
            if_pos hdc] at h
          exact hlog _ rfl h
        · rw [show cutoff_minL (.node pl cs) alpha beta cutoff depth f p =
              if depth = cutoff
              then (iv (f (.node pl cs)), [], [(.node pl cs, depth)])
              else coMinFoldL cs ⊤ alpha beta cutoff depth f p from rfl,
            if_pos hdc] at h
          exact hlog _ rfl h
      · rcases he with h | h
        · rw [show cutoff_maxL (.node pl cs) alpha beta cutoff depth f p =
              if depth = cutoff
              then (iv (f (.node pl cs)), [], [(.node pl cs, depth)])
              else coMaxFoldL cs ⊥ alpha beta cutoff depth f p from rfl,
            if_neg hdc] at h
          obtain ⟨c, hcmem, alpha', beta', h'⟩ :=
            coMaxFoldL_log_sub cutoff depth f p cs ⊥ alpha beta e h
          exact ihn c (hsub c hcmem) (depth + 1)
            (statesAtDepth_child depth g hmem hcmem) alpha' beta' cutoff
            f p e (Or.inr h')
        · rw [show cutoff_minL (.node pl cs) alpha beta cutoff depth f p =
              if depth = cutoff
              then (iv (f (.node pl cs)), [], [(.node pl cs, depth)])
              else coMinFoldL cs ⊤ alpha beta cutoff depth f p from rfl,
            if_neg hdc] at h
          obtain ⟨c, hcmem, alpha', beta', h'⟩ :=
            coMinFoldL_log_sub cutoff depth f p cs ⊤ alpha beta e h
          exact ihn c (hsub c hcmem) (depth + 1)
            (statesAtDepth_child depth g hmem hcmem) alpha' beta' cutoff
            f p e (Or.inl h')

theorem cutoffLoopL_log_sub (cutoffn : Nat) (f : GameTree → ℤ) (p : Nat) :
    ∀ (cs : List GameTree) (i : Nat) (act : Option Nat)
      (result alpha beta : EVal) (e : GameTree × Nat),
      e ∈ (cutoffLoopL cs i act result alpha beta cutoffn f p).2.2 →
      ∃ c ∈ cs, ∃ alpha' beta' : EVal,
        e ∈ (cutoff_minL c alpha' beta' cutoffn 1 f p).2.2 := by
  intro cs
  induction cs with
  | nil => intro i act result alpha beta e he; cases he
  | cons c cs ih =>
    intro i act result alpha beta e he
    rw [show cutoffLoopL (c :: cs) i act result alpha beta cutoffn f p =
        if beta ≤ (cutoff_minL c alpha beta cutoffn 1 f p).1
        then ((if result < (cutoff_minL c alpha beta cutoffn 1 f p).1
            then some i else act),
          (cutoff_minL c alpha beta cutoffn 1 f p).2.1,
          (cutoff_minL c alpha beta cutoffn 1 f p).2.2)
        else ((cutoffLoopL cs (i + 1)
            (if result < (cutoff_minL c alpha beta cutoffn 1 f p).1
              then some i else act)
            (if result < (cutoff_minL c alpha beta cutoffn 1 f p).1
              then (cutoff_minL c alpha beta cutoffn 1 f p).1 else result)
            (max alpha (cutoff_minL c alpha beta cutoffn 1 f p).1)
            beta cutoffn f p).1,
          (cutoff_minL c alpha beta cutoffn 1 f p).2.1 ++
            (cutoffLoopL cs (i + 1)
              (if result < (cutoff_minL c alpha beta cutoffn 1 f p).1
                then some i else act)
              (if result < (cutoff_minL c alpha beta cutoffn 1 f p).1
                then (cutoff_minL c alpha beta cutoffn 1 f p).1 else result)
              (max alpha (cutoff_minL c alpha beta cutoffn 1 f p).1)
              beta cutoffn f p).2.1,
          (cutoff_minL c alpha beta cutoffn 1 f p).2.2 ++
            (cutoffLoopL cs (i + 1)
              (if result < (cutoff_minL c alpha beta cutoffn 1 f p).1
                then some i else act)
              (if result < (cutoff_minL c alpha beta cutoffn 1 f p).1
                then (cutoff_minL c alpha beta cutoffn 1 f p).1 else result)
              (max alpha (cutoff_minL c alpha beta cutoffn 1 f p).1)
              beta cutoffn f p).2.2) from rfl] at he
    by_cases hb : beta ≤ (cutoff_minL c alpha beta cutoffn 1 f p).1
    · rw [if_pos hb] at he
      exact ⟨c, List.mem_cons_self c cs, alpha, beta, he⟩
    · rw [if_neg hb] at he
      rcases List.mem_append.mp he with h | h
      · exact ⟨c, List.mem_cons_self c cs, alpha, beta, h⟩
      · obtain ⟨c', hc', alpha', beta', h'⟩ := ih _ _ _ _ _ _ h
        exact ⟨c', List.mem_cons_of_mem c hc', alpha', beta', h'⟩

theorem cutoff_minL_val_lt_top (c : GameTree) (alpha beta : EVal)
    (f : GameTree → ℤ) (p : Nat) :
    (cutoff_minL c alpha beta 1 1 f p).1 < ⊤ := by
  cases c with
  | terminal pl rws => exact iv_lt_top _
  | node pl cs => exact iv_lt_top _

theorem cutoff_minL_log_one (c : GameTree) (alpha beta : EVal)
    (f : GameTree → ℤ) (p : Nat) :
    (cutoff_minL c alpha beta 1 1 f p).2.2 =
      if c.isTerminal then [] else [(c, 1)] := by
  cases c with
  | terminal pl rws => rfl
  | node pl cs => rfl

theorem cutoffLoopL_one (f : GameTree → ℤ) (p : Nat) :
    ∀ (cs : List GameTree) (i : Nat) (act : Option Nat)
      (result alpha : EVal),
      (cutoffLoopL cs i act result alpha ⊤ 1 f p).2.2 =
        (cs.filter (fun c => !c.isTerminal)).map (fun c => (c, 1)) := by
  intro cs
  induction cs with
  | nil => intro i act result alpha; rfl
  | cons c cs ih =>
    intro i act result alpha
    rw [show cutoffLoopL (c :: cs) i act result alpha ⊤ 1 f p =
        if (⊤ : EVal) ≤ (cutoff_minL c alpha ⊤ 1 1 f p).1
        then ((if result < (cutoff_minL c alpha ⊤ 1 1 f p).1
            then some i else act),
          (cutoff_minL c alpha ⊤ 1 1 f p).2.1,
          (cutoff_minL c alpha ⊤ 1 1 f p).2.2)
        else ((cutoffLoopL cs (i + 1)
            (if result < (cutoff_minL c alpha ⊤ 1 1 f p).1
              then some i else act)
            (if result < (cutoff_minL c alpha ⊤ 1 1 f p).1
              then (cutoff_minL c alpha ⊤ 1 1 f p).1 else result)
            (max alpha (cutoff_minL c alpha ⊤ 1 1 f p).1) ⊤ 1 f p).1,
          (cutoff_minL c alpha ⊤ 1 1 f p).2.1 ++
            (cutoffLoopL cs (i + 1)
              (if result < (cutoff_minL c alpha ⊤ 1 1 f p).1
                then some i else act)
              (if result < (cutoff_minL c alpha ⊤ 1 1 f p).1
                then (cutoff_minL c alpha ⊤ 1 1 f p).1 else result)
              (max alpha (cutoff_minL c alpha ⊤ 1 1 f p).1) ⊤ 1 f p).2.1,
          (cutoff_minL c alpha ⊤ 1 1 f p).2.2 ++
            (cutoffLoopL cs (i + 1)
              (if result < (cutoff_minL c alpha ⊤ 1 1 f p).1
                then some i else act)
              (if result < (cutoff_minL c alpha ⊤ 1 1 f p).1
                then (cutoff_minL c alpha ⊤ 1 1 f p).1 else result)
              (max alpha (cutoff_minL c alpha ⊤ 1 1 f p).1) ⊤ 1 f p).2.2)
        from rfl]
    rw [if_neg (not_le.mpr (cutoff_minL_val_lt_top c alpha ⊤ f p))]
    show (cutoff_minL c alpha ⊤ 1 1 f p).2.2 ++ _ = _
    rw [cutoff_minL_log_one, ih]
    by_cases hterm : c.isTerminal
    · rw [if_pos hterm, List.filter_cons,
        if_neg (by simp [hterm]), List.nil_append]
    · rw [if_neg hterm, List.filter_cons,
        if_pos (by simpa using hterm), List.map_cons, List.cons_append,
        List.nil_append]

/-- C7 fails on the code as stated: with `cutoff_ply = 1`, a first-move
state that is terminal is evaluated exactly (per the terminal-precedence
rule) and `eval_func` is never invoked on it, so `eval_func` is not applied
to "exactly the states resulting from the root player's first move". -/
theorem claim_cutoff_frontier_counterexample :
    GameTree.terminal 1 [2, -2] ∈
      (GameTree.node 0 [.terminal 1 [2, -2],
        .node 1 [.terminal 0 [1]]]).children ∧
    (alpha_beta_cutoffL (.node 0 [.terminal 1 [2, -2],
        .node 1 [.terminal 0 [1]]]) 1 (fun _ => 0)).2.2 =
      [(.node 1 [.terminal 0 [1]], 1)] ∧
    ∀ d : Nat, (GameTree.terminal 1 [2, -2], d) ∉
      (alpha_beta_cutoffL (.node 0 [.terminal 1 [2, -2],
        .node 1 [.terminal 0 [1]]]) 1 (fun _ => 0)).2.2 := by
  refine ⟨List.mem_cons_self _ _, rfl, ?_⟩
  intro d
  rw [show (alpha_beta_cutoffL (.node 0 [.terminal 1 [2, -2],
      .node 1 [.terminal 0 [1]]]) 1 (fun _ => 0)).2.2 =
    [(.node 1 [.terminal 0 [1]], 1)] from rfl]
  simp

/-- C7 (amended): every `eval_func` call of `alpha_beta_cutoff` is made at
recorded depth exactly `cutoff_ply`, on a non-terminal state lying exactly
`cutoff_ply` plies below the root; and with `cutoff_ply = 1` the calls are
exactly the non-terminal states resulting from the root player's first
move, in order, each exactly once. -/
theorem claim_cutoff_eval_frontier (g : GameTree) (cutoffn : Nat)
    (f : GameTree → ℤ) :
    (∀ e ∈ (alpha_beta_cutoffL g cutoffn f).2.2,
      e.2 = cutoffn ∧ e.1.isTerminal = false ∧
        e.1 ∈ statesAtDepth e.2 g) ∧
    (alpha_beta_cutoffL g 1 f).2.2 =
      (g.children.filter (fun c => !c.isTerminal)).map (fun c => (c, 1)) := by
  constructor
  · intro e he
    rw [alpha_beta_cutoffL] at he
    obtain ⟨c, hcmem, alpha', beta', h'⟩ :=
      cutoffLoopL_log_sub cutoffn f g.player g.children 0 none ⊥ ⊥ ⊤ e he
    have hc1 : c ∈ statesAtDepth 1 g :=
      statesAtDepth_child 0 g (List.mem_singleton.mpr rfl) hcmem
    exact cutoffL_log g (sizeOf c) c (le_refl _) 1 hc1 alpha' beta' cutoffn
      f g.player e (Or.inr h')
  · rw [alpha_beta_cutoffL]
    exact cutoffLoopL_one f g.player g.children 0 none ⊥ ⊥

/-- Witness for C7 (amended): in a depth-2 game with one non-terminal
first-move state, the single recorded `eval_func` call is at depth 1, on
that non-terminal state, and the cutoff-1 log is exactly that state. -/
theorem claim_cutoff_eval_frontier_witness :
    ((GameTree.node 1 [.terminal 0 [1]], 1).2 = 1 ∧
      (GameTree.node 1 [.terminal 0 [1]], 1).1.isTerminal = false ∧
      (GameTree.node 1 [.terminal 0 [1]], 1).1 ∈
        statesAtDepth (GameTree.node 1 [.terminal 0 [1]], 1).2
          (.node 0 [.node 1 [.terminal 0 [1]]])) ∧
    (alpha_beta_cutoffL (.node 0 [.node 1 [.terminal 0 [1]]]) 1
        (fun _ => 5)).2.2 =
      ((GameTree.node 0 [.node 1 [.terminal 0 [1]]]).children.filter
        (fun c => !c.isTerminal)).map (fun c => (c, 1)) :=
  ⟨(claim_cutoff_eval_frontier (.node 0 [.node 1 [.terminal 0 [1]]]) 1
      (fun _ => 5)).1 (GameTree.node 1 [.terminal 0 [1]], 1)
      (List.mem_singleton.mpr rfl),
    (claim_cutoff_eval_frontier (.node 0 [.node 1 [.terminal 0 [1]]]) 1
      (fun _ => 5)).2⟩

/-! ### Counting terminal evaluations: `alpha_beta` versus `minimax` -/

theorem maxFoldL_cons (g c : GameTree) (cs : List GameTree) (v : EVal) :
    maxFoldL g (c :: cs) v =
      ((maxFoldL g cs (max v (min_valueL g c).1)).1,
        (min_valueL g c).2 ++
          (maxFoldL g cs (max v (min_valueL g c).1)).2) := rfl

theorem minFoldL_cons (g c : GameTree) (cs : List GameTree) (v : EVal) :
    minFoldL g (c :: cs) v =
      ((minFoldL g cs (min v (max_valueL g c).1)).1,
        (max_valueL g c).2 ++
          (minFoldL g cs (min v (max_valueL g c).1)).2) := rfl

theorem minimaxLoopL_cons (g c : GameTree) (cs : List GameTree) (i : Nat)
    (act : Option Nat) (result : EVal) :
    minimaxLoopL g (c :: cs) i act result =
      ((if result < (min_valueL g c).1
        then minimaxLoopL g cs (i + 1) (some i) (min_valueL g c).1
        else minimaxLoopL g cs (i + 1) act result).1,
       (min_valueL g c).2 ++
        (if result < (min_valueL g c).1
          then minimaxLoopL g cs (i + 1) (some i) (min_valueL g c).1
          else minimaxLoopL g cs (i + 1) act result).2) := rfl

theorem abMaxFoldL_cons (g c : GameTree) (cs : List GameTree)
    (v alpha beta : EVal) :
    abMaxFoldL g (c :: cs) v alpha beta =
      if beta ≤ max v (alpha_beta_minL g c alpha beta).1
      then (max v (alpha_beta_minL g c alpha beta).1,
        (alpha_beta_minL g c alpha beta).2.1,
        (alpha_beta_minL g c alpha beta).2.2 || !cs.isEmpty)
      else ((abMaxFoldL g cs (max v (alpha_beta_minL g c alpha beta).1)
          (max alpha (max v (alpha_beta_minL g c alpha beta).1)) beta).1,
        (alpha_beta_minL g c alpha beta).2.1 ++
          (abMaxFoldL g cs (max v (alpha_beta_minL g c alpha beta).1)
            (max alpha (max v (alpha_beta_minL g c alpha beta).1))
            beta).2.1,
        (alpha_beta_minL g c alpha beta).2.2 ||
          (abMaxFoldL g cs (max v (alpha_beta_minL g c alpha beta).1)
            (max alpha (max v (alpha_beta_minL g c alpha beta).1))
            beta).2.2) := rfl

theorem abMinFoldL_cons (g c : GameTree) (cs : List GameTree)
    (v alpha beta : EVal) :
    abMinFoldL g (c :: cs) v alpha beta =
      if min v (alpha_beta_maxL g c alpha beta).1 ≤ alpha
      then (min v (alpha_beta_maxL g c alpha beta).1,
        (alpha_beta_maxL g c alpha beta).2.1,
        (alpha_beta_maxL g c alpha beta).2.2 || !cs.isEmpty)
      else ((abMinFoldL g cs (min v (alpha_beta_maxL g c alpha beta).1)
          alpha (min beta (min v (alpha_beta_maxL g c alpha beta).1))).1,
        (alpha_beta_maxL g c alpha beta).2.1 ++
          (abMinFoldL g cs (min v (alpha_beta_maxL g c alpha beta).1)
            alpha
            (min beta (min v (alpha_beta_maxL g c alpha beta).1))).2.1,
        (alpha_beta_maxL g c alpha beta).2.2 ||
          (abMinFoldL g cs (min v (alpha_beta_maxL g c alpha beta).1)
            alpha
            (min beta (min v (alpha_beta_maxL g c alpha beta).1))).2.2)
      := rfl

theorem alphaBetaLoopL_cons (g c : GameTree) (cs : List GameTree) (i : Nat)
    (act : Option Nat) (result alpha beta : EVal) :
    alphaBetaLoopL g (c :: cs) i act result alpha beta =
      if beta ≤ (alpha_beta_minL g c alpha beta).1
      then ((if result < (alpha_beta_minL g c alpha beta).1
          then some i else act),
        (alpha_beta_minL g c alpha beta).2.1,
        (alpha_beta_minL g c alpha beta).2.2 || !cs.isEmpty)
      else ((alphaBetaLoopL g cs (i + 1)
          (if result < (alpha_beta_minL g c alpha beta).1
            then some i else act)
          (if result < (alpha_beta_minL g c alpha beta).1
            then (alpha_beta_minL g c alpha beta).1 else result)
          (max alpha (alpha_beta_minL g c alpha beta).1) beta).1,
        (alpha_beta_minL g c alpha beta).2.1 ++
          (alphaBetaLoopL g cs (i + 1)
            (if result < (alpha_beta_minL g c alpha beta).1
              then some i else act)
            (if result < (alpha_beta_minL g c alpha beta).1
              then (alpha_beta_minL g c alpha beta).1 else result)
            (max alpha (alpha_beta_minL g c alpha beta).1) beta).2.1,
        (alpha_beta_minL g c alpha beta).2.2 ||
          (alphaBetaLoopL g cs (i + 1)
            (if result < (alpha_beta_minL g c alpha beta).1
              then some i else act)
            (if result < (alpha_beta_minL g c alpha beta).1
              then (alpha_beta_minL g c alpha beta).1 else result)
            (max alpha (alpha_beta_minL g c alpha beta).1) beta).2.2)
      := rfl

theorem wfListB_mem {cs : List GameTree}
    (h : GameTree.wfListB cs = true) : ∀ c ∈ cs, c.wfB = true := by
  induction cs with
  | nil => intro c hc; cases hc
  | cons c' cs ih =>
    rw [GameTree.wfListB, Bool.and_eq_true] at h
    intro c hc
    rcases List.mem_cons.mp hc with rfl | hmem
    · exact h.1
    · exact ih h.2 c hmem

theorem leaves_pos : ∀ (n : Nat) (t : GameTree), sizeOf t ≤ n →
    t.wfB = true → 1 ≤ t.leaves := by
  intro n
  induction n with
  | zero =>
    intro t ht
    have : 0 < sizeOf t := by
      cases t with
      | terminal pl rws =>
        simp only [GameTree.terminal.sizeOf_spec]
        omega
      | node pl cs =>
        simp only [GameTree.node.sizeOf_spec]
        omega
    omega
  | succ n ihn =>
    intro t ht hwf
    cases t with
    | terminal pl rws => exact le_refl 1
    | node pl cs =>
      rw [GameTree.wfB, Bool.and_eq_true] at hwf
      obtain ⟨hne, hlist⟩ := hwf
      cases cs with
      | nil => simp at hne
      | cons c cs' =>
        have hsz : sizeOf c ≤ n := by
          have := sizeOf_lt_of_mem_children (List.mem_cons_self c cs') pl
          omega
        have h1 := ihn c hsz (wfListB_mem hlist c (List.mem_cons_self c cs'))
        show 1 ≤ GameTree.leavesList (c :: cs')
        rw [GameTree.leavesList]
        omega

theorem maxFoldL_length (g : GameTree) (cs : List GameTree) :
    (∀ c ∈ cs, (min_valueL g c).2.length = c.leaves) →
    ∀ v, (maxFoldL g cs v).2.length = GameTree.leavesList cs := by
  induction cs with
  | nil => intro _ v; rfl
  | cons c cs ih =>
    intro hc v
    rw [maxFoldL_cons]
    show ((min_valueL g c).2 ++ _).length = _
    rw [List.length_append, hc c (List.mem_cons_self c cs),
      ih (fun c' hc' => hc c' (List.mem_cons_of_mem c hc')) _,
      GameTree.leavesList]

theorem minFoldL_length (g : GameTree) (cs : List GameTree) :
    (∀ c ∈ cs, (max_valueL g c).2.length = c.leaves) →
    ∀ v, (minFoldL g cs v).2.length = GameTree.leavesList cs := by
  induction cs with
  | nil => intro _ v; rfl
  | cons c cs ih =>
    intro hc v
    rw [minFoldL_cons]
    show ((max_valueL g c).2 ++ _).length = _
    rw [List.length_append, hc c (List.mem_cons_self c cs),
      ih (fun c' hc' => hc c' (List.mem_cons_of_mem c hc')) _,
      GameTree.leavesList]

/-- A full minimax evaluation of a state evaluates each of its terminal
descendants exactly once. -/
theorem mmL_length (g : GameTree) : ∀ (n : Nat) (t : GameTree),
    sizeOf t ≤ n →
    (max_valueL g t).2.length = t.leaves ∧
    (min_valueL g t).2.length = t.leaves := by
  intro n
  induction n with
  | zero =>
    intro t ht
    have : 0 < sizeOf t := by
      cases t with
      | terminal pl rws =>
        simp only [GameTree.terminal.sizeOf_spec]
        omega
      | node pl cs =>
        simp only [GameTree.node.sizeOf_spec]
        omega
    omega
  | succ n ihn =>
    intro t ht
    cases t with
    | terminal pl rws => exact ⟨rfl, rfl⟩
    | node pl cs =>
      have hsub : ∀ c ∈ cs, sizeOf c ≤ n := by
        intro c hcmem
        have := sizeOf_lt_of_mem_children hcmem pl
        omega
      constructor
      · exact maxFoldL_length g cs
          (fun c hcmem => (ihn c (hsub c hcmem)).2) ⊥
      · exact minFoldL_length g cs
          (fun c hcmem => (ihn c (hsub c hcmem)).1) ⊤

theorem minimaxLoopL_length (g : GameTree) (cs : List GameTree) :
    ∀ (i : Nat) (act : Option Nat) (result : EVal),
      (minimaxLoopL g cs i act result).2.length =
        GameTree.leavesList cs := by
  induction cs with
  | nil => intro i act result; rfl
  | cons c cs ih =>
    intro i act result
    rw [minimaxLoopL_cons]
    show ((min_valueL g c).2 ++ _).length = _
    rw [List.length_append,
      (mmL_length g (sizeOf c) c (le_refl _)).2, GameTree.leavesList]
    by_cases hm : result < (min_valueL g c).1
    · rw [if_pos hm, ih]
    · rw [if_neg hm, ih]

theorem abMaxFoldL_length_le (g : GameTree) (cs : List GameTree) :
    (∀ c ∈ cs, ∀ alpha beta : EVal,
      (alpha_beta_minL g c alpha beta).2.1.length ≤ c.leaves) →
    ∀ v alpha beta : EVal,
      (abMaxFoldL g cs v alpha beta).2.1.length ≤
        GameTree.leavesList cs := by
  induction cs with
  | nil => intro _ v alpha beta; exact Nat.le_refl 0
  | cons c cs ih =>
    intro hc v alpha beta
    have hhead := hc c (List.mem_cons_self c cs)
    have ihcs := ih (fun c' hc' => hc c' (List.mem_cons_of_mem c hc'))
    rw [abMaxFoldL_cons]
    show ((if _ then _ else _ : EVal × List GameTree × Bool)).2.1.length ≤
      GameTree.leavesList (c :: cs)
    rw [GameTree.leavesList]
    by_cases hb : beta ≤ max v (alpha_beta_minL g c alpha beta).1
    · rw [if_pos hb]
      exact le_trans (hhead alpha beta) (Nat.le_add_right _ _)
    · rw [if_neg hb]
      show ((alpha_beta_minL g c alpha beta).2.1 ++ _).length ≤ _
      rw [List.length_append]
      exact Nat.add_le_add (hhead alpha beta) (ihcs _ _ _)

theorem abMinFoldL_length_le (g : GameTree) (cs : List GameTree) :
    (∀ c ∈ cs, ∀ alpha beta : EVal,
      (alpha_beta_maxL g c alpha beta).2.1.length ≤ c.leaves) →
    ∀ v alpha beta : EVal,
      (abMinFoldL g cs v alpha beta).2.1.length ≤
        GameTree.leavesList cs := by
  induction cs with
  | nil => intro _ v alpha beta; exact Nat.le_refl 0
  | cons c cs ih =>
    intro hc v alpha beta
    have hhead := hc c (List.mem_cons_self c cs)
    have ihcs := ih (fun c' hc' => hc c' (List.mem_cons_of_mem c hc'))
    rw [abMinFoldL_cons]
    show ((if _ then _ else _ : EVal × List GameTree × Bool)).2.1.length ≤
      GameTree.leavesList (c :: cs)
    rw [GameTree.leavesList]
    by_cases hb : min v (alpha_beta_maxL g c alpha beta).1 ≤ alpha
    · rw [if_pos hb]
      exact le_trans (hhead alpha beta) (Nat.le_add_right _ _)
    · rw [if_neg hb]
      show ((alpha_beta_maxL g c alpha beta).2.1 ++ _).length ≤ _
      rw [List.length_append]
      exact Nat.add_le_add (hhead alpha beta) (ihcs _ _ _)

/-- The alpha-beta helpers evaluate at most as many terminals as the
corresponding exhaustive minimax helpers. -/
theorem abL_length_le (g : GameTree) : ∀ (n : Nat) (t : GameTree),
    sizeOf t ≤ n → ∀ alpha beta : EVal,
    (alpha_beta_maxL g t alpha beta).2.1.length ≤ t.leaves ∧
    (alpha_beta_minL g t alpha beta).2.1.length ≤ t.leaves := by
  intro n
  induction n with
  | zero =>
    intro t ht
    have : 0 < sizeOf t := by
      cases t with
      | terminal pl rws =>
        simp only [GameTree.terminal.sizeOf_spec]
        omega
      | node pl cs =>
        simp only [GameTree.node.sizeOf_spec]
        omega
    omega
  | succ n ihn =>
    intro t ht alpha beta
    cases t with
    | terminal pl rws => exact ⟨Nat.le_refl 1, Nat.le_refl 1⟩
    | node pl cs =>
      have hsub : ∀ c ∈ cs, sizeOf c ≤ n := by
        intro c hcmem
        have := sizeOf_lt_of_mem_children hcmem pl
        omega
      constructor
      · exact abMaxFoldL_length_le g cs
          (fun c hcmem alpha' beta' =>
            (ihn c (hsub c hcmem) alpha' beta').2) ⊥ alpha beta
      · exact abMinFoldL_length_le g cs
          (fun c hcmem alpha' beta' =>
            (ihn c (hsub c hcmem) alpha' beta').1) ⊤ alpha beta

theorem abMaxFoldL_length_lt (g : GameTree) (cs : List GameTree) :
    GameTree.wfListB cs = true →
    (∀ c ∈ cs, ∀ alpha beta : EVal,
      (alpha_beta_minL g c alpha beta).2.1.length ≤ c.leaves) →
    (∀ c ∈ cs, ∀ alpha beta : EVal,
      (alpha_beta_minL g c alpha beta).2.2 = true →
      (alpha_beta_minL g c alpha beta).2.1.length < c.leaves) →
    ∀ v alpha beta : EVal,
      (abMaxFoldL g cs v alpha beta).2.2 = true →
      (abMaxFoldL g cs v alpha beta).2.1.length <
        GameTree.leavesList cs := by
  induction cs with
  | nil => intro _ _ _ v alpha beta h; exact Bool.noConfusion h
  | cons c cs ih =>
    intro hwf hcle hclt v alpha beta
    rw [GameTree.wfListB, Bool.and_eq_true] at hwf
    have hhead := hcle c (List.mem_cons_self c cs)
    have ihcs := ih hwf.2
      (fun c' hc' => hcle c' (List.mem_cons_of_mem c hc'))
      (fun c' hc' => hclt c' (List.mem_cons_of_mem c hc'))
    rw [abMaxFoldL_cons, GameTree.leavesList]
    by_cases hb : beta ≤ max v (alpha_beta_minL g c alpha beta).1
    · rw [if_pos hb]
      intro hfl
      rw [Bool.or_eq_true] at hfl
      rcases hfl with h | h
      · exact lt_of_lt_of_le
          (hclt c (List.mem_cons_self c cs) alpha beta h)
          (Nat.le_add_right _ _)
      · cases cs with
        | nil => simp at h
        | cons c' cs'' =>
          have hpos : 1 ≤ GameTree.leavesList (c' :: cs'') := by
            have hw' := wfListB_mem hwf.2 c' (List.mem_cons_self c' cs'')
            have := leaves_pos (sizeOf c') c' (le_refl _) hw'
            rw [GameTree.leavesList]
            omega
          have := hhead alpha beta
          show (alpha_beta_minL g c alpha beta).2.1.length <
            c.leaves + GameTree.leavesList (c' :: cs'')
          omega
    · rw [if_neg hb]
      intro hfl
      show ((alpha_beta_minL g c alpha beta).2.1 ++ _).length < _
      rw [List.length_append]
      rw [Bool.or_eq_true] at hfl
      rcases hfl with h | h
      · have h1 := hclt c (List.mem_cons_self c cs) alpha beta h
        have h2 := abMaxFoldL_length_le g cs
          (fun c' hc' alpha' beta' =>
            hcle c' (List.mem_cons_of_mem c hc') alpha' beta')
          (max v (alpha_beta_minL g c alpha beta).1)
          (max alpha (max v (alpha_beta_minL g c alpha beta).1)) beta
        omega
      · have h1 := hhead alpha beta
        have h2 := ihcs _ _ _ h
        omega

theorem abMinFoldL_length_lt (g : GameTree) (cs : List GameTree) :
    GameTree.wfListB cs = true →
    (∀ c ∈ cs, ∀ alpha beta : EVal,
      (alpha_beta_maxL g c alpha beta).2.1.length ≤ c.leaves) →
    (∀ c ∈ cs, ∀ alpha beta : EVal,
      (alpha_beta_maxL g c alpha beta).2.2 = true →
      (alpha_beta_maxL g c alpha beta).2.1.length < c.leaves) →
    ∀ v alpha beta : EVal,
      (abMinFoldL g cs v alpha beta).2.2 = true →
      (abMinFoldL g cs v alpha beta).2.1.length <
        GameTree.leavesList cs := by
  induction cs with
  | nil => intro _ _ _ v alpha beta h; exact Bool.noConfusion h
  | cons c cs ih =>
    intro hwf hcle hclt v alpha beta
    rw [GameTree.wfListB, Bool.and_eq_true] at hwf
    have hhead := hcle c (List.mem_cons_self c cs)
    have ihcs := ih hwf.2
      (fun c' hc' => hcle c' (List.mem_cons_of_mem c hc'))
      (fun c' hc' => hclt c' (List.mem_cons_of_mem c hc'))
    rw [abMinFoldL_cons, GameTree.leavesList]
    by_cases hb : min v (alpha_beta_maxL g c alpha beta).1 ≤ alpha
    · rw [if_pos hb]
      intro hfl
      rw [Bool.or_eq_true] at hfl
      rcases hfl with h | h
      · exact lt_of_lt_of_le
          (hclt c (List.mem_cons_self c cs) alpha beta h)
          (Nat.le_add_right _ _)
      · cases cs with
        | nil => simp at h
        | cons c' cs'' =>
          have hpos : 1 ≤ GameTree.leavesList (c' :: cs'') := by
            have hw' := wfListB_mem hwf.2 c' (List.mem_cons_self c' cs'')
            have := leaves_pos (sizeOf c') c' (le_refl _) hw'
            rw [GameTree.leavesList]
            omega
          have := hhead alpha beta
          show (alpha_beta_maxL g c alpha beta).2.1.length <
            c.leaves + GameTree.leavesList (c' :: cs'')
          omega
    · rw [if_neg hb]
      intro hfl
      show ((alpha_beta_maxL g c alpha beta).2.1 ++ _).length < _
      rw [List.length_append]
      rw [Bool.or_eq_true] at hfl
      rcases hfl with h | h
      · have h1 := hclt c (List.mem_cons_self c cs) alpha beta h
        have h2 := abMinFoldL_length_le g cs
          (fun c' hc' alpha' beta' =>
            hcle c' (List.mem_cons_of_mem c hc') alpha' beta')
          (min v (alpha_beta_maxL g c alpha beta).1) alpha
          (min beta (min v (alpha_beta_maxL g c alpha beta).1))
        omega
      · have h1 := hhead alpha beta
        have h2 := ihcs _ _ _ h
        omega

/-- When the instrumented alpha-beta helpers report a pruned subtree, they
evaluate strictly fewer terminals than the exhaustive search would. -/
theorem abL_length_lt (g : GameTree) : ∀ (n : Nat) (t : GameTree),
    sizeOf t ≤ n → t.wfB = true → ∀ alpha beta : EVal,
    ((alpha_beta_maxL g t alpha beta).2.2 = true →
      (alpha_beta_maxL g t alpha beta).2.1.length < t.leaves) ∧
    ((alpha_beta_minL g t alpha beta).2.2 = true →
      (alpha_beta_minL g t alpha beta).2.1.length < t.leaves) := by
  intro n
  induction n with
  | zero =>
    intro t ht
    have : 0 < sizeOf t := by
      cases t with
      | terminal pl rws =>
        simp only [GameTree.terminal.sizeOf_spec]
        omega
      | node pl cs =>
        simp only [GameTree.node.sizeOf_spec]
        omega
    omega
  | succ n ihn =>
    intro t ht hwf alpha beta
    cases t with
    | terminal pl rws =>
      exact ⟨fun h => Bool.noConfusion h, fun h => Bool.noConfusion h⟩
    | node pl cs =>
      have hsub : ∀ c ∈ cs, sizeOf c ≤ n := by
        intro c hcmem
        have := sizeOf_lt_of_mem_children hcmem pl
        omega
      rw [GameTree.wfB, Bool.and_eq_true] at hwf
      constructor
      · exact abMaxFoldL_length_lt g cs hwf.2
          (fun c hcmem alpha' beta' =>
            (abL_length_le g (sizeOf c) c (le_refl _) alpha' beta').2)
          (fun c hcmem alpha' beta' =>
            (ihn c (hsub c hcmem)
              (wfListB_mem hwf.2 c hcmem) alpha' beta').2)
          ⊥ alpha beta
      · exact abMinFoldL_length_lt g cs hwf.2
          (fun c hcmem alpha' beta' =>
            (abL_length_le g (sizeOf c) c (le_refl _) alpha' beta').1)
          (fun c hcmem alpha' beta' =>
            (ihn c (hsub c hcmem)
              (wfListB_mem hwf.2 c hcmem) alpha' beta').1)
          ⊤ alpha beta

theorem alphaBetaLoopL_length_le (g : GameTree) (cs : List GameTree) :
    ∀ (i : Nat) (act : Option Nat) (result alpha beta : EVal),
      (alphaBetaLoopL g cs i act result alpha beta).2.1.length ≤
        GameTree.leavesList cs := by
  induction cs with
  | nil => intro i act result alpha beta; exact Nat.le_refl 0
  | cons c cs ih =>
    intro i act result alpha beta
    have hhead := (abL_length_le g (sizeOf c) c (le_refl _) alpha beta).2
    rw [alphaBetaLoopL_cons, GameTree.leavesList]
    by_cases hb : beta ≤ (alpha_beta_minL g c alpha beta).1
    · rw [if_pos hb]
      exact le_trans hhead (Nat.le_add_right _ _)
    · rw [if_neg hb]
      show ((alpha_beta_minL g c alpha beta).2.1 ++ _).length ≤ _
      rw [List.length_append]
      exact Nat.add_le_add hhead (ih _ _ _ _ _)

theorem alphaBetaLoopL_length_lt (g : GameTree) (cs : List GameTree) :
    GameTree.wfListB cs = true →
    ∀ (i : Nat) (act : Option Nat) (result alpha beta : EVal),
      (alphaBetaLoopL g cs i act result alpha beta).2.2 = true →
      (alphaBetaLoopL g cs i act result alpha beta).2.1.length <
        GameTree.leavesList cs := by
  induction cs with
  | nil => intro _ i act result alpha beta h; exact Bool.noConfusion h
  | cons c cs ih =>
    intro hwf i act result alpha beta
    rw [GameTree.wfListB, Bool.and_eq_true] at hwf
    have hhead := (abL_length_le g (sizeOf c) c (le_refl _) alpha beta).2
    rw [alphaBetaLoopL_cons, GameTree.leavesList]
    by_cases hb : beta ≤ (alpha_beta_minL g c alpha beta).1
    · rw [if_pos hb]
      intro hfl
      rw [Bool.or_eq_true] at hfl
      rcases hfl with h | h
      · exact lt_of_lt_of_le
          ((abL_length_lt g (sizeOf c) c (le_refl _) hwf.1 alpha beta).2 h)
          (Nat.le_add_right _ _)
      · cases cs with
        | nil => simp at h
        | cons c' cs'' =>
          have hpos : 1 ≤ GameTree.leavesList (c' :: cs'') := by
            have hw' := wfListB_mem hwf.2 c' (List.mem_cons_self c' cs'')
            have := leaves_pos (sizeOf c') c' (le_refl _) hw'
            rw [GameTree.leavesList]
            omega
          show (alpha_beta_minL g c alpha beta).2.1.length <
            c.leaves + GameTree.leavesList (c' :: cs'')
          omega
    · rw [if_neg hb]
      intro hfl
      show ((alpha_beta_minL g c alpha beta).2.1 ++ _).length < _
      rw [List.length_append]
      rw [Bool.or_eq_true] at hfl
      rcases hfl with h | h
      · have h1 :=
          (abL_length_lt g (sizeOf c) c (le_refl _) hwf.1 alpha beta).2 h
        have h2 := alphaBetaLoopL_length_le g cs (i + 1)
          (if result < (alpha_beta_minL g c alpha beta).1
            then some i else act)
          (if result < (alpha_beta_minL g c alpha beta).1
            then (alpha_beta_minL g c alpha beta).1 else result)
          (max alpha (alpha_beta_minL g c alpha beta).1) beta
        omega
      · have h1 := hhead
        have h2 := ih hwf.2 _ _ _ _ _ h
        omega

/-- C9: on every game instance the alpha-beta search evaluates at most as
many terminal states as minimax; and on every well-formed game in which
some loop of the alpha-beta run returned early with unexplored actions
remaining (a pruned subtree), it evaluates strictly fewer. -/
theorem claim_alpha_beta_fewer_evals (g : GameTree) :
    (alpha_betaL g).2.1.length ≤ (minimaxL g).2.length ∧
    (g.wfB = true → (alpha_betaL g).2.2 = true →
      (alpha_betaL g).2.1.length < (minimaxL g).2.length) := by
  cases g with
  | terminal pl rws =>
    exact ⟨Nat.le_refl 0, fun _ h => Bool.noConfusion h⟩
  | node pl cs =>
    have hmm : (minimaxL (GameTree.node pl cs)).2.length =
        GameTree.leavesList cs := minimaxLoopL_length _ cs 0 none ⊥
    constructor
    · rw [hmm]
      exact alphaBetaLoopL_length_le _ cs 0 none ⊥ ⊥ ⊤
    · intro hwf hfl
      rw [GameTree.wfB, Bool.and_eq_true] at hwf
      rw [hmm]
      exact alphaBetaLoopL_length_lt _ cs hwf.2 0 none ⊥ ⊥ ⊤ hfl

/-- Witness for C9: the spec's depth-2 scenario with leaf values {3, 5}
and {1, 9}: alpha-beta evaluates 3 terminals, minimax all 4, and a prune
is reported. -/
theorem claim_alpha_beta_fewer_evals_witness :
    (alpha_betaL (.node 0 [.node 1 [.terminal 0 [3], .terminal 0 [5]],
        .node 1 [.terminal 0 [1], .terminal 0 [9]]])).2.1.length <
      (minimaxL (.node 0 [.node 1 [.terminal 0 [3], .terminal 0 [5]],
        .node 1 [.terminal 0 [1], .terminal 0 [9]]])).2.length ∧
    (alpha_betaL (.node 0 [.node 1 [.terminal 0 [3], .terminal 0 [5]],
        .node 1 [.terminal 0 [1], .terminal 0 [9]]])).2.1.length = 3 ∧
    (minimaxL (.node 0 [.node 1 [.terminal 0 [3], .terminal 0 [5]],
        .node 1 [.terminal 0 [1], .terminal 0 [9]]])).2.length = 4 :=
  ⟨(claim_alpha_beta_fewer_evals
      (.node 0 [.node 1 [.terminal 0 [3], .terminal 0 [5]],
        .node 1 [.terminal 0 [1], .terminal 0 [9]]])).2 (by decide)
      (by decide),
    by decide, by decide⟩

/-! ### `evaluate_state` is called only on terminal states -/

theorem maxFoldL_mem_sub (g : GameTree) :
    ∀ (cs : List GameTree) (v : EVal) (s : GameTree),
      s ∈ (maxFoldL g cs v).2 → ∃ c ∈ cs, s ∈ (min_valueL g c).2 := by
  intro cs
  induction cs with
  | nil => intro v s hs; cases hs
  | cons c cs ih =>
    intro v s hs
    rw [maxFoldL_cons] at hs
    rcases List.mem_append.mp hs with h | h
    · exact ⟨c, List.mem_cons_self c cs, h⟩
    · obtain ⟨c', hc', h'⟩ := ih _ _ h
      exact ⟨c', List.mem_cons_of_mem c hc', h'⟩

theorem minFoldL_mem_sub (g : GameTree) :
    ∀ (cs : List GameTree) (v : EVal) (s : GameTree),
      s ∈ (minFoldL g cs v).2 → ∃ c ∈ cs, s ∈ (max_valueL g c).2 := by
  intro cs
  induction cs with
  | nil => intro v s hs; cases hs
  | cons c cs ih =>
    intro v s hs
    rw [minFoldL_cons] at hs
    rcases List.mem_append.mp hs with h | h
    · exact ⟨c, List.mem_cons_self c cs, h⟩
    · obtain ⟨c', hc', h'⟩ := ih _ _ h
      exact ⟨c', List.mem_cons_of_mem c hc', h'⟩

theorem minimaxLoopL_mem_sub (g : GameTree) :
    ∀ (cs : List GameTree) (i : Nat) (act : Option Nat) (result : EVal)
      (s : GameTree),
      s ∈ (minimaxLoopL g cs i act result).2 →
      ∃ c ∈ cs, s ∈ (min_valueL g c).2 := by
  intro cs
  induction cs with
  | nil => intro i act result s hs; cases hs
  | cons c cs ih =>
    intro i act result s hs
    rw [minimaxLoopL_cons] at hs
    rcases List.mem_append.mp hs with h | h
    · exact ⟨c, List.mem_cons_self c cs, h⟩
    · by_cases hm : result < (min_valueL g c).1
      · rw [if_pos hm] at h
        obtain ⟨c', hc', h'⟩ := ih _ _ _ _ h
        exact ⟨c', List.mem_cons_of_mem c hc', h'⟩
      · rw [if_neg hm] at h
        obtain ⟨c', hc', h'⟩ := ih _ _ _ _ h
        exact ⟨c', List.mem_cons_of_mem c hc', h'⟩

theorem abMaxFoldL_mem_sub (g : GameTree) :
    ∀ (cs : List GameTree) (v alpha beta : EVal) (s : GameTree),
      s ∈ (abMaxFoldL g cs v alpha beta).2.1 →
      ∃ c ∈ cs, ∃ alpha' beta' : EVal,
        s ∈ (alpha_beta_minL g c alpha' beta').2.1 := by
  intro cs
  induction cs with
  | nil => intro v alpha beta s hs; cases hs
  | cons c cs ih =>
    intro v alpha beta s hs
    rw [abMaxFoldL_cons] at hs
    by_cases hb : beta ≤ max v (alpha_beta_minL g c alpha beta).1
    · rw [if_pos hb] at hs
      exact ⟨c, List.mem_cons_self c cs, alpha, beta, hs⟩
    · rw [if_neg hb] at hs
      rcases List.mem_append.mp hs with h | h
      · exact ⟨c, List.mem_cons_self c cs, alpha, beta, h⟩
      · obtain ⟨c', hc', alpha', beta', h'⟩ := ih _ _ _ _ h
        exact ⟨c', List.mem_cons_of_mem c hc', alpha', beta', h'⟩

theorem abMinFoldL_mem_sub (g : GameTree) :
    ∀ (cs : List GameTree) (v alpha beta : EVal) (s : GameTree),
      s ∈ (abMinFoldL g cs v alpha beta).2.1 →
      ∃ c ∈ cs, ∃ alpha' beta' : EVal,
        s ∈ (alpha_beta_maxL g c alpha' beta').2.1 := by
  intro cs
  induction cs with
  | nil => intro v alpha beta s hs; cases hs
  | cons c cs ih =>
    intro v alpha beta s hs
    rw [abMinFoldL_cons] at hs
    by_cases hb : min v (alpha_beta_maxL g c alpha beta).1 ≤ alpha
    · rw [if_pos hb] at hs
      exact ⟨c, List.mem_cons_self c cs, alpha, beta, hs⟩
    · rw [if_neg hb] at hs
      rcases List.mem_append.mp hs with h | h
      · exact ⟨c, List.mem_cons_self c cs, alpha, beta, h⟩
      · obtain ⟨c', hc', alpha', beta', h'⟩ := ih _ _ _ _ h
        exact ⟨c', List.mem_cons_of_mem c hc', alpha', beta', h'⟩

theorem alphaBetaLoopL_mem_sub (g : GameTree) :
    ∀ (cs : List GameTree) (i : Nat) (act : Option Nat)
      (result alpha beta : EVal) (s : GameTree),
      s ∈ (alphaBetaLoopL g cs i act result alpha beta).2.1 →
      ∃ c ∈ cs, ∃ alpha' beta' : EVal,
        s ∈ (alpha_beta_minL g c alpha' beta').2.1 := by
  intro cs
  induction cs with
  | nil => intro i act result alpha beta s hs; cases hs
  | cons c cs ih =>
    intro i act result alpha beta s hs
    rw [alphaBetaLoopL_cons] at hs
    by_cases hb : beta ≤ (alpha_beta_minL g c alpha beta).1
    · rw [if_pos hb] at hs
      exact ⟨c, List.mem_cons_self c cs, alpha, beta, hs⟩
    · rw [if_neg hb] at hs
      rcases List.mem_append.mp hs with h | h
      · exact ⟨c, List.mem_cons_self c cs, alpha, beta, h⟩
      · obtain ⟨c', hc', alpha', beta', h'⟩ := ih _ _ _ _ _ _ h
        exact ⟨c', List.mem_cons_of_mem c hc', alpha', beta', h'⟩

theorem coMaxFoldL_cons (c : GameTree) (cs : List GameTree)
    (v alpha beta : EVal) (cutoffn depth : Nat) (f : GameTree → ℤ)
    (p : Nat) :
    coMaxFoldL (c :: cs) v alpha beta cutoffn depth f p =
      if beta ≤ max v (cutoff_minL c alpha beta cutoffn (depth + 1) f p).1
      then (max v (cutoff_minL c alpha beta cutoffn (depth + 1) f p).1,
        (cutoff_minL c alpha beta cutoffn (depth + 1) f p).2.1,
        (cutoff_minL c alpha beta cutoffn (depth + 1) f p).2.2)
      else ((coMaxFoldL cs
          (max v (cutoff_minL c alpha beta cutoffn (depth + 1) f p).1)
          (max alpha
            (max v (cutoff_minL c alpha beta cutoffn (depth + 1) f p).1))
          beta cutoffn depth f p).1,
        (cutoff_minL c alpha beta cutoffn (depth + 1) f p).2.1 ++
          (coMaxFoldL cs
            (max v (cutoff_minL c alpha beta cutoffn (depth + 1) f p).1)
            (max alpha
              (max v (cutoff_minL c alpha beta cutoffn (depth + 1) f p).1))
            beta cutoffn depth f p).2.1,
        (cutoff_minL c alpha beta cutoffn (depth + 1) f p).2.2 ++
          (coMaxFoldL cs
            (max v (cutoff_minL c alpha beta cutoffn (depth + 1) f p).1)
            (max alpha
              (max v (cutoff_minL c alpha beta cutoffn (depth + 1) f p).1))
            beta cutoffn depth f p).2.2) := rfl

theorem coMinFoldL_cons (c : GameTree) (cs : List GameTree)
    (v alpha beta : EVal) (cutoffn depth : Nat) (f : GameTree → ℤ)
    (p : Nat) :
    coMinFoldL (c :: cs) v alpha beta cutoffn depth f p =
      if min v (cutoff_maxL c alpha beta cutoffn (depth + 1) f p).1 ≤ alpha
      then (min v (cutoff_maxL c alpha beta cutoffn (depth + 1) f p).1,
        (cutoff_maxL c alpha beta cutoffn (depth + 1) f p).2.1,
        (cutoff_maxL c alpha beta cutoffn (depth + 1) f p).2.2)
      else ((coMinFoldL cs
          (min v (cutoff_maxL c alpha beta cutoffn (depth + 1) f p).1)
          alpha
          (min beta
            (min v (cutoff_maxL c alpha beta cutoffn (depth + 1) f p).1))
          cutoffn depth f p).1,
        (cutoff_maxL c alpha beta cutoffn (depth + 1) f p).2.1 ++
          (coMinFoldL cs
            (min v (cutoff_maxL c alpha beta cutoffn (depth + 1) f p).1)
            alpha
            (min beta
              (min v (cutoff_maxL c alpha beta cutoffn (depth + 1) f p).1))
            cutoffn depth f p).2.1,
        (cutoff_maxL c alpha beta cutoffn (depth + 1) f p).2.2 ++
          (coMinFoldL cs
            (min v (cutoff_maxL c alpha beta cutoffn (depth + 1) f p).1)
            alpha
            (min beta
              (min v (cutoff_maxL c alpha beta cutoffn (depth + 1) f p).1))
            cutoffn depth f p).2.2) := rfl

theorem coMaxFoldL_termlog_sub (cutoffn depth : Nat) (f : GameTree → ℤ)
    (p : Nat) :
    ∀ (cs : List GameTree) (v alpha beta : EVal) (s : GameTree),
      s ∈ (coMaxFoldL cs v alpha beta cutoffn depth f p).2.1 →
      ∃ c ∈ cs, ∃ alpha' beta' : EVal,
        s ∈ (cutoff_minL c alpha' beta' cutoffn (depth + 1) f p).2.1 := by
  intro cs
  induction cs with
  | nil => intro v alpha beta s hs; cases hs
  | cons c cs ih =>
    intro v alpha beta s hs
    rw [coMaxFoldL_cons] at hs
    by_cases hb : beta ≤
        max v (cutoff_minL c alpha beta cutoffn (depth + 1) f p).1
    · rw [if_pos hb] at hs
      exact ⟨c, List.mem_cons_self c cs, alpha, beta, hs⟩
    · rw [if_neg hb] at hs
      rcases List.mem_append.mp hs with h | h
      · exact ⟨c, List.mem_cons_self c cs, alpha, beta, h⟩
      · obtain ⟨c', hc', alpha', beta', h'⟩ := ih _ _ _ _ h
        exact ⟨c', List.mem_cons_of_mem c hc', alpha', beta', h'⟩

theorem coMinFoldL_termlog_sub (cutoffn depth : Nat) (f : GameTree → ℤ)
    (p : Nat) :
    ∀ (cs : List GameTree) (v alpha beta : EVal) (s : GameTree),
      s ∈ (coMinFoldL cs v alpha beta cutoffn depth f p).2.1 →
      ∃ c ∈ cs, ∃ alpha' beta' : EVal,
        s ∈ (cutoff_maxL c alpha' beta' cutoffn (depth + 1) f p).2.1 := by
  intro cs
  induction cs with
  | nil => intro v alpha beta s hs; cases hs
  | cons c cs ih =>
    intro v alpha beta s hs
    rw [coMinFoldL_cons] at hs
    by_cases hb : min v (cutoff_maxL c alpha beta cutoffn
        (depth + 1) f p).1 ≤ alpha
    · rw [if_pos hb] at hs
      exact ⟨c, List.mem_cons_self c cs, alpha, beta, hs⟩
    · rw [if_neg hb] at hs
      rcases List.mem_append.mp hs with h | h
      · exact ⟨c, List.mem_cons_self c cs, alpha, beta, h⟩
      · obtain ⟨c', hc', alpha', beta', h'⟩ := ih _ _ _ _ h
        exact ⟨c', List.mem_cons_of_mem c hc', alpha', beta', h'⟩

theorem cutoffLoopL_cons (c : GameTree) (cs : List GameTree) (i : Nat)
    (act : Option Nat) (result alpha beta : EVal) (cutoffn : Nat)
    (f : GameTree → ℤ) (p : Nat) :
    cutoffLoopL (c :: cs) i act result alpha beta cutoffn f p =
      if beta ≤ (cutoff_minL c alpha beta cutoffn 1 f p).1
      then ((if result < (cutoff_minL c alpha beta cutoffn 1 f p).1
          then some i else act),
        (cutoff_minL c alpha beta cutoffn 1 f p).2.1,
        (cutoff_minL c alpha beta cutoffn 1 f p).2.2)
      else ((cutoffLoopL cs (i + 1)
          (if result < (cutoff_minL c alpha beta cutoffn 1 f p).1
            then some i else act)
          (if result < (cutoff_minL c alpha beta cutoffn 1 f p).1
            then (cutoff_minL c alpha beta cutoffn 1 f p).1 else result)
          (max alpha (cutoff_minL c alpha beta cutoffn 1 f p).1)
          beta cutoffn f p).1,
        (cutoff_minL c alpha beta cutoffn 1 f p).2.1 ++
          (cutoffLoopL cs (i + 1)
            (if result < (cutoff_minL c alpha beta cutoffn 1 f p).1
              then some i else act)
            (if result < (cutoff_minL c alpha beta cutoffn 1 f p).1
              then (cutoff_minL c alpha beta cutoffn 1 f p).1 else result)
            (max alpha (cutoff_minL c alpha beta cutoffn 1 f p).1)
            beta cutoffn f p).2.1,
        (cutoff_minL c alpha beta cutoffn 1 f p).2.2 ++
          (cutoffLoopL cs (i + 1)
            (if result < (cutoff_minL c alpha beta cutoffn 1 f p).1
              then some i else act)
            (if result < (cutoff_minL c alpha beta cutoffn 1 f p).1
              then (cutoff_minL c alpha beta cutoffn 1 f p).1 else result)
            (max alpha (cutoff_minL c alpha beta cutoffn 1 f p).1)
            beta cutoffn f p).2.2) := rfl

theorem cutoffLoopL_termlog_sub (cutoffn : Nat) (f : GameTree → ℤ)
    (p : Nat) :
    ∀ (cs : List GameTree) (i : Nat) (act : Option Nat)
      (result alpha beta : EVal) (s : GameTree),
      s ∈ (cutoffLoopL cs i act result alpha beta cutoffn f p).2.1 →
      ∃ c ∈ cs, ∃ alpha' beta' : EVal,
        s ∈ (cutoff_minL c alpha' beta' cutoffn 1 f p).2.1 := by
  intro cs
  induction cs with
  | nil => intro i act result alpha beta s hs; cases hs
  | cons c cs ih =>
    intro i act result alpha beta s hs
    rw [cutoffLoopL_cons] at hs
    by_cases hb : beta ≤ (cutoff_minL c alpha beta cutoffn 1 f p).1
    · rw [if_pos hb] at hs
      exact ⟨c, List.mem_cons_self c cs, alpha, beta, hs⟩
    · rw [if_neg hb] at hs
      rcases List.mem_append.mp hs with h | h
      · exact ⟨c, List.mem_cons_self c cs, alpha, beta, h⟩
      · obtain ⟨c', hc', alpha', beta', h'⟩ := ih _ _ _ _ _ _ h
        exact ⟨c', List.mem_cons_of_mem c hc', alpha', beta', h'⟩

theorem genMaxFoldL_cons (c : GameTree) (cs : List GameTree) (p : Nat)
    (v : EVal) :
    genMaxFoldL (c :: cs) p v =
      ((genMaxFoldL cs p (max v
          (if c.player = p then general_maxL c p else general_minL c p).1)).1,
        (if c.player = p then general_maxL c p else general_minL c p).2 ++
          (genMaxFoldL cs p (max v
            (if c.player = p then general_maxL c p
              else general_minL c p).1)).2) := rfl

theorem genMinFoldL_cons (c : GameTree) (cs : List GameTree) (p : Nat)
    (v : EVal) :
    genMinFoldL (c :: cs) p v =
      ((genMinFoldL cs p (min v
          (if c.player = p then general_maxL c p else general_minL c p).1)).1,
        (if c.player = p then general_maxL c p else general_minL c p).2 ++
          (genMinFoldL cs p (min v
            (if c.player = p then general_maxL c p
              else general_minL c p).1)).2) := rfl

theorem generalLoopL_cons (c : GameTree) (cs : List GameTree) (p i : Nat)
    (act : Option Nat) (maximum : EVal) :
    generalLoopL (c :: cs) p i act maximum =
      ((if maximum <
          (if c.player = p then general_maxL c p else general_minL c p).1
        then generalLoopL cs p (i + 1) (some i)
          (if c.player = p then general_maxL c p else general_minL c p).1
        else generalLoopL cs p (i + 1) act maximum).1,
       (if c.player = p then general_maxL c p else general_minL c p).2 ++
        (if maximum <
            (if c.player = p then general_maxL c p else general_minL c p).1
          then generalLoopL cs p (i + 1) (some i)
            (if c.player = p then general_maxL c p else general_minL c p).1
          else generalLoopL cs p (i + 1) act maximum).2) := rfl

theorem genMaxFoldL_mem_sub (p : Nat) :
    ∀ (cs : List GameTree) (v : EVal) (s : GameTree),
      s ∈ (genMaxFoldL cs p v).2 →
      ∃ c ∈ cs, s ∈ (general_maxL c p).2 ∨ s ∈ (general_minL c p).2 := by
  intro cs
  induction cs with
  | nil => intro v s hs; cases hs
  | cons c cs ih =>
    intro v s hs
    rw [genMaxFoldL_cons] at hs
    rcases List.mem_append.mp hs with h | h
    · by_cases hp : c.player = p
      · rw [if_pos hp] at h
        exact ⟨c, List.mem_cons_self c cs, Or.inl h⟩
      · rw [if_neg hp] at h
        exact ⟨c, List.mem_cons_self c cs, Or.inr h⟩
    · obtain ⟨c', hc', h'⟩ := ih _ _ h
      exact ⟨c', List.mem_cons_of_mem c hc', h'⟩

theorem genMinFoldL_mem_sub (p : Nat) :
    ∀ (cs : List GameTree) (v : EVal) (s : GameTree),
      s ∈ (genMinFoldL cs p v).2 →
      ∃ c ∈ cs, s ∈ (general_maxL c p).2 ∨ s ∈ (general_minL c p).2 := by
  intro cs
  induction cs with
  | nil => intro v s hs; cases hs
  | cons c cs ih =>
    intro v s hs
    rw [genMinFoldL_cons] at hs
    rcases List.mem_append.mp hs with h | h
    · by_cases hp : c.player = p
      · rw [if_pos hp] at h
        exact ⟨c, List.mem_cons_self c cs, Or.inl h⟩
      · rw [if_neg hp] at h
        exact ⟨c, List.mem_cons_self c cs, Or.inr h⟩
    · obtain ⟨c', hc', h'⟩ := ih _ _ h
      exact ⟨c', List.mem_cons_of_mem c hc', h'⟩

theorem generalLoopL_mem_sub (p : Nat) :
    ∀ (cs : List GameTree) (i : Nat) (act : Option Nat) (maximum : EVal)
      (s : GameTree),
      s ∈ (generalLoopL cs p i act maximum).2 →
      ∃ c ∈ cs, s ∈ (general_maxL c p).2 ∨ s ∈ (general_minL c p).2 := by
  intro cs
  induction cs with
  | nil => intro i act maximum s hs; cases hs
  | cons c cs ih =>
    intro i act maximum s hs
    rw [generalLoopL_cons] at hs
    rcases List.mem_append.mp hs with h | h
    · by_cases hp : c.player = p
      · rw [if_pos hp] at h
        exact ⟨c, List.mem_cons_self c cs, Or.inl h⟩
      · rw [if_neg hp] at h
        exact ⟨c, List.mem_cons_self c cs, Or.inr h⟩
    · by_cases hm : maximum <
          (if c.player = p then general_maxL c p else general_minL c p).1
      · rw [if_pos hm] at h
        obtain ⟨c', hc', h'⟩ := ih _ _ _ _ h
        exact ⟨c', List.mem_cons_of_mem c hc', h'⟩
      · rw [if_neg hm] at h
        obtain ⟨c', hc', h'⟩ := ih _ _ _ _ h
        exact ⟨c', List.mem_cons_of_mem c hc', h'⟩

theorem mmL_log_terminal (g : GameTree) : ∀ (n : Nat) (t : GameTree),
    sizeOf t ≤ n →
    (∀ s ∈ (max_valueL g t).2, s.isTerminal = true) ∧
    (∀ s ∈ (min_valueL g t).2, s.isTerminal = true) := by
  intro n
  induction n with
  | zero =>
    intro t ht
    have : 0 < sizeOf t := by
      cases t with
      | terminal pl rws =>
        simp only [GameTree.terminal.sizeOf_spec]
        omega
      | node pl cs =>
        simp only [GameTree.node.sizeOf_spec]
        omega
    omega
  | succ n ihn =>
    intro t ht
    cases t with
    | terminal pl rws =>
      constructor <;> intro s hs <;>
        rw [List.mem_singleton.mp hs] <;> rfl
    | node pl cs =>
      have hsub : ∀ c ∈ cs, sizeOf c ≤ n := by
        intro c hcmem
        have := sizeOf_lt_of_mem_children hcmem pl
        omega
      constructor
      · intro s hs
        obtain ⟨c, hcmem, h⟩ := maxFoldL_mem_sub g cs ⊥ s hs
        exact (ihn c (hsub c hcmem)).2 s h
      · intro s hs
        obtain ⟨c, hcmem, h⟩ := minFoldL_mem_sub g cs ⊤ s hs
        exact (ihn c (hsub c hcmem)).1 s h

theorem abL_log_terminal (g : GameTree) : ∀ (n : Nat) (t : GameTree),
    sizeOf t ≤ n → ∀ alpha beta : EVal,
    (∀ s ∈ (alpha_beta_maxL g t alpha beta).2.1, s.isTerminal = true) ∧
    (∀ s ∈ (alpha_beta_minL g t alpha beta).2.1, s.isTerminal = true) := by
  intro n
  induction n with
  | zero =>
    intro t ht
    have : 0 < sizeOf t := by
      cases t with
      | terminal pl rws =>
        simp only [GameTree.terminal.sizeOf_spec]
        omega
      | node pl cs =>
        simp only [GameTree.node.sizeOf_spec]
        omega
    omega
  | succ n ihn =>
    intro t ht alpha beta
    cases t with
    | terminal pl rws =>
      constructor <;> intro s hs <;>
        rw [List.mem_singleton.mp hs] <;> rfl
    | node pl cs =>
      have hsub : ∀ c ∈ cs, sizeOf c ≤ n := by
        intro c hcmem
        have := sizeOf_lt_of_mem_children hcmem pl
        omega
      constructor
      · intro s hs
        obtain ⟨c, hcmem, alpha', beta', h⟩ :=
          abMaxFoldL_mem_sub g cs ⊥ alpha beta s hs
        exact (ihn c (hsub c hcmem) alpha' beta').2 s h
      · intro s hs
        obtain ⟨c, hcmem, alpha', beta', h⟩ :=
          abMinFoldL_mem_sub g cs ⊤ alpha beta s hs
        exact (ihn c (hsub c hcmem) alpha' beta').1 s h

theorem cutoffL_log_terminal : ∀ (n : Nat) (t : GameTree),
    sizeOf t ≤ n → ∀ (alpha beta : EVal) (cutoffn depth : Nat)
      (f : GameTree → ℤ) (p : Nat),
    (∀ s ∈ (cutoff_maxL t alpha beta cutoffn depth f p).2.1,
      s.isTerminal = true) ∧
    (∀ s ∈ (cutoff_minL t alpha beta cutoffn depth f p).2.1,
      s.isTerminal = true) := by
  intro n
  induction n with
  | zero =>
    intro t ht
    have : 0 < sizeOf t := by
      cases t with
      | terminal pl rws =>
        simp only [GameTree.terminal.sizeOf_spec]
        omega
      | node pl cs =>
        simp only [GameTree.node.sizeOf_spec]
        omega
    omega
  | succ n ihn =>
    intro t ht alpha beta cutoffn depth f p
    cases t with
    | terminal pl rws =>
      constructor <;> intro s hs <;>
        rw [List.mem_singleton.mp hs] <;> rfl
    | node pl cs =>
      have hsub : ∀ c ∈ cs, sizeOf c ≤ n := by
        intro c hcmem
        have := sizeOf_lt_of_mem_children hcmem pl
        omega
      by_cases hdc : depth = cutoffn
      · constructor
        · intro s hs
          rw [show (cutoff_maxL (.node pl cs) alpha beta cutoffn depth
                f p) =
              if depth = cutoffn
              then (iv (f (.node pl cs)), [], [(.node pl cs, depth)])
              else coMaxFoldL cs ⊥ alpha beta cutoffn depth f p from rfl,
            if_pos hdc] at hs
          cases hs
        · intro s hs
          rw [show (cutoff_minL (.node pl cs) alpha beta cutoffn depth
                f p) =
              if depth = cutoffn
              then (iv (f (.node pl cs)), [], [(.node pl cs, depth)])
              else coMinFoldL cs ⊤ alpha beta cutoffn depth f p from rfl,
            if_pos hdc] at hs
          cases hs
      · constructor
        · intro s hs
          rw [show (cutoff_maxL (.node pl cs) alpha beta cutoffn depth
                f p) =
              if depth = cutoffn
              then (iv (f (.node pl cs)), [], [(.node pl cs, depth)])
              else coMaxFoldL cs ⊥ alpha beta cutoffn depth f p from rfl,
            if_neg hdc] at hs
          obtain ⟨c, hcmem, alpha', beta', h⟩ :=
            coMaxFoldL_termlog_sub cutoffn depth f p cs ⊥ alpha beta s hs
          exact (ihn c (hsub c hcmem) alpha' beta' cutoffn (depth + 1)
            f p).2 s h
        · intro s hs
          rw [show (cutoff_minL (.node pl cs) alpha beta cutoffn depth
                f p) =
              if depth = cutoffn
              then (iv (f (.node pl cs)), [], [(.node pl cs, depth)])
              else coMinFoldL cs ⊤ alpha beta cutoffn depth f p from rfl,
            if_neg hdc] at hs
          obtain ⟨c, hcmem, alpha', beta', h⟩ :=
            coMinFoldL_termlog_sub cutoffn depth f p cs ⊤ alpha beta s hs
          exact (ihn c (hsub c hcmem) alpha' beta' cutoffn (depth + 1)
            f p).1 s h

theorem genL_log_terminal : ∀ (n : Nat) (t : GameTree), sizeOf t ≤ n →
    ∀ p : Nat,
    (∀ s ∈ (general_maxL t p).2, s.isTerminal = true) ∧
    (∀ s ∈ (general_minL t p).2, s.isTerminal = true) := by
  intro n
  induction n with
  | zero =>
    intro t ht
    have : 0 < sizeOf t := by
      cases t with
      | terminal pl rws =>
        simp only [GameTree.terminal.sizeOf_spec]
        omega
      | node pl cs =>
        simp only [GameTree.node.sizeOf_spec]
        omega
    omega
  | succ n ihn =>
    intro t ht p
    cases t with
    | terminal pl rws =>
      constructor <;> intro s hs <;>
        rw [List.mem_singleton.mp hs] <;> rfl
    | node pl cs =>
      have hsub : ∀ c ∈ cs, sizeOf c ≤ n := by
        intro c hcmem
        have := sizeOf_lt_of_mem_children hcmem pl
        omega
      constructor
      · intro s hs
        obtain ⟨c, hcmem, h | h⟩ := genMaxFoldL_mem_sub p cs ⊥ s hs
        · exact (ihn c (hsub c hcmem) p).1 s h
        · exact (ihn c (hsub c hcmem) p).2 s h
      · intro s hs
        obtain ⟨c, hcmem, h | h⟩ := genMinFoldL_mem_sub p cs ⊤ s hs
        · exact (ihn c (hsub c hcmem) p).1 s h
        · exact (ihn c (hsub c hcmem) p).2 s h

/-- C10: every state that any of the four search strategies passes to
`evaluate_state` (as recorded by the instrumented runs) satisfies
`is_terminal_state`: the terminal test guards every reward lookup. -/
theorem claim_evaluate_only_on_terminals (g : GameTree) (cutoffn : Nat)
    (f : GameTree → ℤ) :
    (∀ s ∈ (minimaxL g).2, s.isTerminal = true) ∧
    (∀ s ∈ (alpha_betaL g).2.1, s.isTerminal = true) ∧
    (∀ s ∈ (alpha_beta_cutoffL g cutoffn f).2.1, s.isTerminal = true) ∧
    (∀ s ∈ (general_minimaxL g).2, s.isTerminal = true) := by
  refine ⟨?_, ?_, ?_, ?_⟩
  · intro s hs
    obtain ⟨c, hcmem, h⟩ :=
      minimaxLoopL_mem_sub g g.children 0 none ⊥ s hs
    exact (mmL_log_terminal g (sizeOf c) c (le_refl _)).2 s h
  · intro s hs
    obtain ⟨c, hcmem, alpha', beta', h⟩ :=
      alphaBetaLoopL_mem_sub g g.children 0 none ⊥ ⊥ ⊤ s hs
    exact (abL_log_terminal g (sizeOf c) c (le_refl _) alpha' beta').2 s h
  · intro s hs
    obtain ⟨c, hcmem, alpha', beta', h⟩ :=
      cutoffLoopL_termlog_sub cutoffn f g.player g.children 0 none
        ⊥ ⊥ ⊤ s hs
    exact (cutoffL_log_terminal (sizeOf c) c (le_refl _) alpha' beta'
      cutoffn 1 f g.player).2 s h
  · intro s hs
    obtain ⟨c, hcmem, h | h⟩ :=
      generalLoopL_mem_sub g.player g.children 0 none ⊥ s hs
    · exact (genL_log_terminal (sizeOf c) c (le_refl _) g.player).1 s h
    · exact (genL_log_terminal (sizeOf c) c (le_refl _) g.player).2 s h

/-- Witness for C10: on a one-move game, each of the four strategies
evaluates exactly the terminal `terminal 1 [7]`, and it is terminal. -/
theorem claim_evaluate_only_on_terminals_witness :
    (GameTree.terminal 1 [7]).isTerminal = true ∧
    (GameTree.terminal 1 [7]).isTerminal = true ∧
    (GameTree.terminal 1 [7]).isTerminal = true ∧
    (GameTree.terminal 1 [7]).isTerminal = true :=
  ⟨(claim_evaluate_only_on_terminals (.node 0 [.terminal 1 [7]]) 2
      (fun _ => 0)).1 (.terminal 1 [7]) (List.mem_singleton.mpr rfl),
    (claim_evaluate_only_on_terminals (.node 0 [.terminal 1 [7]]) 2
      (fun _ => 0)).2.1 (.terminal 1 [7]) (List.mem_singleton.mpr rfl),
    (claim_evaluate_only_on_terminals (.node 0 [.terminal 1 [7]]) 2
      (fun _ => 0)).2.2.1 (.terminal 1 [7]) (List.mem_singleton.mpr rfl),
    (claim_evaluate_only_on_terminals (.node 0 [.terminal 1 [7]]) 2
      (fun _ => 0)).2.2.2 (.terminal 1 [7]) (List.mem_singleton.mpr rfl)⟩
